import Mathlib

/-!
Verification of the analytics engine of the workout_progress_visualize
repository against its natural-language specification.

Embedding conventions. JavaScript numbers are modelled as rationals (ℚ);
nullable numeric fields as Option ℚ (null / undefined / empty CSV cell map
to none). Math.pow(x, 0.5) and Math.log are modelled by computable rational
stand-ins; no theorem below depends on their values beyond the elementary
bounds proved about them. Array.prototype.sort is modelled by a stable
insertion sort driven by the source's comparator, with a NaN comparator
value treated as +0, exactly as ECMAScript SortCompare prescribes; for a
consistent comparator every stable sort produces the same list, and the
concrete counterexamples below involve at most one comparison, so the
choice of stable algorithm is immaterial. new Date(s).getTime() is modelled
by parseDate, which accepts ISO "YYYY-MM-DD" strings (the only date shape
used by concrete inputs here) and encodes the timestamp order-isomorphically.
-/

namespace WorkoutViz

/-- JS Math.round: round half toward positive infinity. -/
def jsRound (q : ℚ) : ℤ := ⌊q + 1/2⌋

/-- Math.round(x * 10) / 10, the source's rounding to one decimal place. -/
def round1 (q : ℚ) : ℚ := (jsRound (q * 10) : ℚ) / 10

/-- Computable rational stand-in for Math.pow(x, 0.5) (used by the forecast
engine's diminishing factor). Only the bounds ratSqrt_nonneg and
ratSqrt_le_one are used by the theorems below. -/
def ratSqrt (q : ℚ) : ℚ :=
  if q ≤ 0 then 0 else (Nat.sqrt (Int.toNat ⌊q * 1000000000000⌋) : ℚ) / 1000000

/-- Computable rational stand-in for Math.log. No theorem below depends on
its value: it only feeds startingValue computations that the theorems
constrain through hypotheses. -/
def ratLog (q : ℚ) : ℚ :=
  if q ≤ 1 then 0 else (Nat.log 2 (Int.toNat ⌊q⌋) : ℚ) * 693147 / 1000000

theorem ratSqrt_nonneg (q : ℚ) : 0 ≤ ratSqrt q := by
  unfold ratSqrt
  split
  · exact le_refl 0
  · positivity

theorem ratSqrt_le_one {q : ℚ} (h : q ≤ 1) : ratSqrt q ≤ 1 := by
  unfold ratSqrt
  split
  · norm_num
  · rw [div_le_one (by norm_num)]
    have hfl : ⌊q * 1000000000000⌋ ≤ 1000000000000 := by
      have : q * 1000000000000 ≤ 1000000000000 := by nlinarith
      calc ⌊q * 1000000000000⌋ ≤ ⌊(1000000000000 : ℚ)⌋ := Int.floor_le_floor this
        _ = 1000000000000 := by norm_num
    have htn : Int.toNat ⌊q * 1000000000000⌋ ≤ 1000000000000 := by omega
    have hs : Nat.sqrt (Int.toNat ⌊q * 1000000000000⌋) ≤ 1000000 := by
      have h2 : Nat.sqrt (Int.toNat ⌊q * 1000000000000⌋) ≤ Nat.sqrt 1000000000000 :=
        Nat.sqrt_le_sqrt htn
      have h3 : Nat.sqrt 1000000000000 = 1000000 := by
        have : (1000000 : ℕ) * 1000000 = 1000000000000 := by norm_num
        rw [← this]
        exact Nat.sqrt_eq 1000000
      omega
    exact_mod_cast hs

theorem ratSqrt_zero : ratSqrt 0 = 0 := by unfold ratSqrt; norm_num

/-- round1 is monotone (Math.round and division by 10 both are). -/
theorem round1_mono {x y : ℚ} (h : x ≤ y) : round1 x ≤ round1 y := by
  unfold round1 jsRound
  have : ⌊x * 10 + 1/2⌋ ≤ ⌊y * 10 + 1/2⌋ := Int.floor_le_floor (by linarith)
  have : ((⌊x * 10 + 1/2⌋ : ℤ) : ℚ) ≤ ((⌊y * 10 + 1/2⌋ : ℤ) : ℚ) := by exact_mod_cast this
  linarith

/-- Rounding to one decimal moves a value by strictly less than 1/10 and at
most 1/20 upward: x - 1/20 < round1 x ≤ x + 1/20. -/
theorem round1_bounds (x : ℚ) : x - 1/20 < round1 x ∧ round1 x ≤ x + 1/20 := by
  unfold round1 jsRound
  have h1 : (⌊x * 10 + 1/2⌋ : ℚ) ≤ x * 10 + 1/2 := Int.floor_le _
  have h2 : x * 10 + 1/2 - 1 < (⌊x * 10 + 1/2⌋ : ℚ) := Int.sub_one_lt_floor _
  constructor <;> [linarith; linarith]

/-- src/src/server.ts epley_formula: weight * (1 + reps / 30). -/
def epley_formula (weight reps : ℚ) : ℚ := weight * (1 + reps / 30)

/-- src/src/server.ts brzycki_formula: weight / (1.0278 - 0.0278 * reps). -/
def brzycki_formula (weight reps : ℚ) : ℚ := weight / (1.0278 - 0.0278 * reps)

/-- C3: the spec demands that Brzycki inputs with reps ≥ 37 be treated as
invalid (rejected or clamped, fails/undefined) rather than produce a finite
negative value. The source has no such guard: at weight 100, reps 37 the
code returns the finite negative number -125000. (The spec itself flags the
missing guard as unintentional, so the code, not the claim, is at fault.) -/
theorem C3_brzycki_reps37_finite_negative :
    brzycki_formula 100 37 = -125000 ∧ brzycki_formula 100 37 < 0 := by
  constructor <;> norm_num [brzycki_formula]

/-- One step of the stable insertion sort modelling Array.prototype.sort:
an element is placed before the first element against which the comparator
returns ≤ 0 (ECMAScript SortCompare coerces a NaN comparator value to +0,
and the sort is stable, so elements comparing equal keep their original
relative order). -/
def insertCmp (c : α → α → ℚ) (a : α) : List α → List α
  | [] => [a]
  | b :: l => if c a b ≤ 0 then a :: b :: l else b :: insertCmp c a l

/-- Stable sort by a JS comparator. -/
def sortCmp (c : α → α → ℚ) : List α → List α
  | [] => []
  | a :: l => insertCmp c a (sortCmp c l)

theorem insertCmp_perm (c : α → α → ℚ) (a : α) (l : List α) :
    (insertCmp c a l).Perm (a :: l) := by
  induction l with
  | nil => simp [insertCmp]
  | cons b t ih =>
    unfold insertCmp
    split
    · exact List.Perm.refl _
    · exact (List.Perm.cons b ih).trans (List.Perm.swap a b t)

theorem sortCmp_perm (c : α → α → ℚ) (l : List α) : (sortCmp c l).Perm l := by
  induction l with
  | nil => exact List.Perm.refl _
  | cons a t ih =>
    unfold sortCmp
    exact (insertCmp_perm c a (sortCmp c t)).trans (List.Perm.cons a ih)

theorem mem_sortCmp {c : α → α → ℚ} {l : List α} {x : α} :
    x ∈ sortCmp c l ↔ x ∈ l := (sortCmp_perm c l).mem_iff

/-- Model of new Date(s).getTime(), restricted to ISO "YYYY-MM-DD" strings
(the only date shape used by the concrete inputs of this development); any
other string yields an invalid date (NaN timestamp), modelled none. The
timestamp is the order-isomorphic encoding y*10000 + m*100 + d rather than
epoch milliseconds: every use in the source under verification only
compares timestamps. -/
def parseDate (s : String) : Option ℤ :=
  match s.toList with
  | [y1, y2, y3, y4, h1, m1, m2, h2, d1, d2] =>
    if y1.isDigit ∧ y2.isDigit ∧ y3.isDigit ∧ y4.isDigit ∧ h1 = '-' ∧
        m1.isDigit ∧ m2.isDigit ∧ h2 = '-' ∧ d1.isDigit ∧ d2.isDigit then
      let y : ℤ := (y1.toNat - 48) * 1000 + (y2.toNat - 48) * 100 +
        (y3.toNat - 48) * 10 + (y4.toNat - 48)
      let m : ℤ := (m1.toNat - 48) * 10 + (m2.toNat - 48)
      let d : ℤ := (d1.toNat - 48) * 10 + (d2.toNat - 48)
      if 1 ≤ m ∧ m ≤ 12 ∧ 1 ≤ d ∧ d ≤ 31 then some (y * 10000 + m * 100 + d)
      else none
    else none
  | _ => none

/-- A set record inside a session's exercise list (server.ts buildSessions
pushes these). Numeric CSV fields are modelled pre-parsed: the source's
pattern r.f ? Number(r.f) : null maps "" / missing to none. -/
structure WSet where
  set_index : Option ℚ
  weight_lbs : Option ℚ
  reps : Option ℚ
  distance_miles : Option ℚ
  duration_seconds : Option ℚ
  rpe : Option ℚ
  exercise_notes : String
deriving Repr, DecidableEq

/-- A raw CSV row (server.ts RawRow), with numeric fields pre-parsed into
optional rationals as above. -/
structure RawRow where
  title : String
  start_time : String
  end_time : String
  description : String
  exercise_title : String
  exercise_notes : String
  set_index : Option ℚ
  weight_lbs : Option ℚ
  reps : Option ℚ
  distance_miles : Option ℚ
  duration_seconds : Option ℚ
  rpe : Option ℚ
deriving Repr, DecidableEq

/-- A session (server.ts buildSessions output). The exercises map is a JS
Map / plain object with string keys: both preserve insertion order, so it
is modelled as an association list. -/
structure Session where
  id : String
  title : String
  start_time : String
  end_time : String
  description : String
  exercises : List (String × List WSet)
deriving Repr, DecidableEq

/-- JS string short-circuit a || b (the empty string is falsy). -/
def strOr (a b : String) : String := if a = "" then b else a

/-- The session grouping key: title + "|||" + start_time. -/
def rowKey (r : RawRow) : String := r.title ++ "|||" ++ r.start_time

/-- The exercise bucket key: r.exercise_title || "(unknown)". -/
def exKey (r : RawRow) : String := strOr r.exercise_title "(unknown)"

/-- The set record a row contributes (server.ts buildSessions push). -/
def mkSet (r : RawRow) : WSet :=
  { set_index := r.set_index, weight_lbs := r.weight_lbs, reps := r.reps,
    distance_miles := r.distance_miles, duration_seconds := r.duration_seconds,
    rpe := r.rpe, exercise_notes := strOr r.exercise_notes "" }

/-- session.exercises update: if the key is unseen, create an empty bucket,
then push (a JS Map keeps insertion order and an update keeps the key's
position). -/
def pushAssoc (k : String) (v : WSet) :
    List (String × List WSet) → List (String × List WSet)
  | [] => [(k, [v])]
  | (k', vs) :: rest =>
    if k' = k then (k', vs ++ [v]) :: rest else (k', vs) :: pushAssoc k v rest

/-- The fresh session shell created for an unseen key, already holding the
creating row's set. -/
def newSession (r : RawRow) : Session :=
  { id := rowKey r, title := r.title, start_time := r.start_time,
    end_time := r.end_time, description := r.description,
    exercises := [(exKey r, [mkSet r])] }

/-- The update an existing session receives from a row: push the row's set
into the row's exercise bucket. -/
def updSession (r : RawRow) (s : Session) : Session :=
  { s with exercises := pushAssoc (exKey r) (mkSet r) s.exercises }

/-- One iteration of the row loop of server.ts buildSessions: find the
session with the row's key (the map keyed by the id string, in insertion
order) and push the row's set into its exercise bucket; create the session
at the end if the key is unseen. -/
def addRow (r : RawRow) : List Session → List Session
  | [] => [newSession r]
  | s :: rest =>
    if s.id = rowKey r then updSession r s :: rest
    else s :: addRow r rest

/-- The final sort comparator of buildSessions:
(a, b) => new Date(b.start_time).getTime() - new Date(a.start_time).getTime().
An invalid date makes the subtraction NaN, which SortCompare coerces to +0. -/
def sessDescCmp (a b : Session) : ℚ :=
  match parseDate b.start_time, parseDate a.start_time with
  | some tb, some ta => ((tb - ta : ℤ) : ℚ)
  | _, _ => 0

/-- src/src/server.ts buildSessions: group rows into sessions keyed by
title + "|||" + start_time, then sort by start_time descending. -/
def buildSessions (rows : List RawRow) : List Session :=
  sortCmp sessDescCmp (rows.foldl (fun acc r => addRow r acc) [])

/-- Number of set records held by one session, across its exercise buckets. -/
def sessSetCount (s : Session) : ℕ := (s.exercises.map (fun p => p.2.length)).sum

/-- Number of set records across a whole session list. -/
def totalSetCount (l : List Session) : ℕ := (l.map sessSetCount).sum

/-- Number of input rows carrying a given session key. -/
def keyRowCount (rows : List RawRow) (k : String) : ℕ :=
  (rows.filter (fun r => rowKey r = k)).length

/-- The sessions of a list whose id equals a given key. -/
def sessionsWithId (l : List Session) (k : String) : List Session :=
  l.filter (fun s => s.id = k)

theorem pushAssoc_count (k : String) (v : WSet) (exs : List (String × List WSet)) :
    (((pushAssoc k v exs).map (fun p => p.2.length)).sum)
      = ((exs.map (fun p => p.2.length)).sum) + 1 := by
  induction exs with
  | nil => simp [pushAssoc]
  | cons p rest ih =>
    obtain ⟨k', vs⟩ := p
    unfold pushAssoc
    split
    · simp [List.sum_cons]
      omega
    · simp only [List.map_cons, List.sum_cons, ih]
      omega

theorem sessSetCount_updSession (r : RawRow) (s : Session) :
    sessSetCount (updSession r s) = sessSetCount s + 1 := by
  unfold sessSetCount updSession
  exact pushAssoc_count _ _ _

theorem sessSetCount_newSession (r : RawRow) : sessSetCount (newSession r) = 1 := by
  simp [sessSetCount, newSession]

theorem addRow_total (r : RawRow) (acc : List Session) :
    totalSetCount (addRow r acc) = totalSetCount acc + 1 := by
  induction acc with
  | nil => simp [addRow, totalSetCount, sessSetCount_newSession]
  | cons s rest ih =>
    unfold addRow
    split
    · simp [totalSetCount, sessSetCount_updSession]
      omega
    · simp only [totalSetCount, List.map_cons, List.sum_cons] at ih ⊢
      omega

theorem foldl_addRow_total (rows : List RawRow) :
    ∀ acc : List Session,
      totalSetCount (rows.foldl (fun a r => addRow r a) acc)
        = totalSetCount acc + rows.length := by
  induction rows with
  | nil => intro acc; simp
  | cons r rest ih =>
    intro acc
    simp only [List.foldl_cons, List.length_cons, ih (addRow r acc), addRow_total]
    omega

/-- The effect of one row on the per-key history of set counts: a first row
creates a 1-set session, later rows add one set to that session. -/
def bump : List ℕ → List ℕ
  | [] => [1]
  | n :: t => (n + 1) :: t

def bumpN : ℕ → List ℕ → List ℕ
  | 0, h => h
  | n + 1, h => bumpN n (bump h)

theorem bumpN_cons (n m : ℕ) (t : List ℕ) : bumpN n ((m :: t)) = (m + n) :: t := by
  induction n generalizing m with
  | zero => simp [bumpN]
  | succ n ih => simp [bumpN, bump, ih]; omega

theorem bumpN_nil (n : ℕ) : bumpN n [] = if n = 0 then [] else [n] := by
  cases n with
  | zero => simp [bumpN]
  | succ n => simp [bumpN, bump, bumpN_cons]; omega

theorem addRow_filter_ne (r : RawRow) (k : String) (h : rowKey r ≠ k) :
    ∀ acc : List Session, sessionsWithId (addRow r acc) k = sessionsWithId acc k := by
  intro acc
  induction acc with
  | nil =>
    simp [addRow, sessionsWithId, newSession, h]
  | cons s rest ih =>
    unfold addRow
    split
    · rename_i hs
      have hid : (updSession r s).id = s.id := rfl
      simp [sessionsWithId, List.filter_cons, hid, hs, h]
    · rename_i hs
      simp only [sessionsWithId, List.filter_cons] at ih ⊢
      by_cases hk : s.id = k <;> simp [hk, ih]

theorem addRow_filter_key (r : RawRow) :
    ∀ acc : List Session,
      (sessionsWithId (addRow r acc) (rowKey r)).map sessSetCount
        = bump ((sessionsWithId acc (rowKey r)).map sessSetCount) := by
  intro acc
  induction acc with
  | nil =>
    have h1 : sessionsWithId (addRow r []) (rowKey r) = [newSession r] := by
      simp [addRow, sessionsWithId, List.filter_cons,
        show (newSession r).id = rowKey r from rfl]
    rw [h1]
    simp [bump, sessSetCount_newSession, sessionsWithId]
  | cons s rest ih =>
    unfold addRow
    split
    · rename_i hs
      have hid : (updSession r s).id = s.id := rfl
      simp [sessionsWithId, List.filter_cons, hid, hs, bump, sessSetCount_updSession]
    · rename_i hs
      simp only [sessionsWithId, List.filter_cons] at ih ⊢
      simp [hs, ih]

theorem foldl_addRow_filter (rows : List RawRow) :
    ∀ (acc : List Session) (k : String),
      (sessionsWithId (rows.foldl (fun a r => addRow r a) acc) k).map sessSetCount
        = bumpN (keyRowCount rows k) ((sessionsWithId acc k).map sessSetCount) := by
  induction rows with
  | nil => intro acc k; simp [bumpN, keyRowCount]
  | cons r rest ih =>
    intro acc k
    simp only [List.foldl_cons]
    by_cases hk : rowKey r = k
    · subst hk
      have hc : keyRowCount (r :: rest) (rowKey r) = keyRowCount rest (rowKey r) + 1 := by
        simp [keyRowCount, List.filter_cons]
      rw [hc, ih (addRow r acc) (rowKey r), addRow_filter_key]
      rfl
    · have : keyRowCount (r :: rest) k = keyRowCount rest k := by
        simp [keyRowCount, List.filter_cons, hk]
      rw [this, ih (addRow r acc) k, addRow_filter_ne r k hk]

/-- C8: buildSessions drops no set — the total number of set records across
all output sessions equals the number of input rows — and all N rows
sharing an identical session key (title + "|||" + start_time) end up as
the N sets of exactly one session. -/
theorem C8_buildSessions_no_drop (rows : List RawRow) (k : String) :
    totalSetCount (buildSessions rows) = rows.length ∧
    (sessionsWithId (buildSessions rows) k).length
      = (if keyRowCount rows k = 0 then 0 else 1) ∧
    totalSetCount (sessionsWithId (buildSessions rows) k) = keyRowCount rows k := by
  have hperm := sortCmp_perm sessDescCmp (rows.foldl (fun a r => addRow r a) [])
  have hfperm :
      (sessionsWithId (buildSessions rows) k).Perm
        (sessionsWithId (rows.foldl (fun a r => addRow r a) []) k) :=
    hperm.filter _
  have hhist := foldl_addRow_filter rows [] k
  have hnilhist : (sessionsWithId ([] : List Session) k).map sessSetCount = [] := rfl
  rw [hnilhist, bumpN_nil] at hhist
  refine ⟨?_, ?_, ?_⟩
  · have h1 : totalSetCount (buildSessions rows)
        = totalSetCount (rows.foldl (fun a r => addRow r a) []) := by
      unfold totalSetCount
      exact (hperm.map sessSetCount).sum_eq
    rw [h1, foldl_addRow_total rows []]
    simp [totalSetCount]
  · have h2 := hfperm.length_eq
    have h3 : (sessionsWithId (rows.foldl (fun a r => addRow r a) []) k).length
        = ((sessionsWithId (rows.foldl (fun a r => addRow r a) []) k).map sessSetCount).length := by
      simp
    rw [h2, h3, hhist]
    split <;> simp
  · have h4 : totalSetCount (sessionsWithId (buildSessions rows) k)
        = ((sessionsWithId (rows.foldl (fun a r => addRow r a) []) k).map sessSetCount).sum := by
      unfold totalSetCount
      exact (hfperm.map sessSetCount).sum_eq
    rw [h4, hhist]
    split
    · rename_i h0; simp [h0]
    · simp

theorem addRow_ids (r : RawRow) :
    ∀ acc : List Session,
      (addRow r acc).map Session.id
        = if rowKey r ∈ acc.map Session.id then acc.map Session.id
          else acc.map Session.id ++ [rowKey r] := by
  intro acc
  induction acc with
  | nil => simp [addRow, newSession]
  | cons s rest ih =>
    unfold addRow
    split
    · rename_i hs
      have hid : (updSession r s).id = s.id := rfl
      simp [hid, hs]
    · rename_i hs
      have hne : rowKey r ≠ s.id := fun h => hs h.symm
      simp only [List.map_cons, List.mem_cons, ih]
      by_cases hm : rowKey r ∈ rest.map Session.id <;> simp [hm, hne]

theorem foldl_addRow_nodup (rows : List RawRow) :
    ∀ acc : List Session, (acc.map Session.id).Nodup →
      ((rows.foldl (fun a r => addRow r a) acc).map Session.id).Nodup := by
  induction rows with
  | nil => intro acc h; simpa using h
  | cons r rest ih =>
    intro acc h
    simp only [List.foldl_cons]
    refine ih (addRow r acc) ?_
    rw [addRow_ids]
    split
    · exact h
    · rename_i hm
      simp [List.nodup_append, h, hm]

theorem addRow_mem {r : RawRow} {s' : Session} :
    ∀ {acc : List Session}, s' ∈ addRow r acc →
      s' ∈ acc ∨ s' = newSession r ∨ ∃ s ∈ acc, s' = updSession r s := by
  intro acc
  induction acc with
  | nil =>
    intro h
    simp [addRow] at h
    exact Or.inr (Or.inl h)
  | cons s rest ih =>
    intro h
    unfold addRow at h
    split at h
    · rcases List.mem_cons.mp h with h1 | h1
      · exact Or.inr (Or.inr ⟨s, List.mem_cons_self s rest, h1⟩)
      · exact Or.inl (List.mem_cons_of_mem s h1)
    · rcases List.mem_cons.mp h with h1 | h1
      · exact Or.inl (h1 ▸ List.mem_cons_self s rest)
      · rcases ih h1 with h2 | h2 | ⟨t, ht, h2⟩
        · exact Or.inl (List.mem_cons_of_mem s h2)
        · exact Or.inr (Or.inl h2)
        · exact Or.inr (Or.inr ⟨t, List.mem_cons_of_mem s ht, h2⟩)

/-- Properties preserved by the buildSessions row loop: they hold of fresh
session shells and are kept by exercise-bucket pushes. -/
theorem foldl_addRow_preserve (Φ : Session → Prop)
    (hupd : ∀ r s, Φ s → Φ (updSession r s)) :
    ∀ (rows : List RawRow) (acc : List Session),
      (∀ r ∈ rows, Φ (newSession r)) → (∀ s ∈ acc, Φ s) →
      ∀ s ∈ rows.foldl (fun a r => addRow r a) acc, Φ s := by
  intro rows
  induction rows with
  | nil => intro acc _ hacc s hs; exact hacc s hs
  | cons r rest ih =>
    intro acc hnew hacc s hs
    simp only [List.foldl_cons] at hs
    refine ih (addRow r acc) (fun q hq => hnew q (List.mem_cons_of_mem r hq)) ?_ s hs
    intro t ht
    rcases addRow_mem ht with h1 | h1 | ⟨u, hu, h1⟩
    · exact hacc t h1
    · exact h1 ▸ hnew r (List.mem_cons_self r rest)
    · exact h1 ▸ hupd r u (hacc u hu)

theorem pushAssoc_ne_nil (k : String) (v : WSet) :
    ∀ exs : List (String × List WSet), (∀ p ∈ exs, p.2 ≠ []) →
      ∀ p ∈ pushAssoc k v exs, p.2 ≠ [] := by
  intro exs
  induction exs with
  | nil =>
    intro _ p hp
    simp [pushAssoc] at hp
    simp [hp]
  | cons q rest ih =>
    obtain ⟨k', vs⟩ := q
    intro hall p hp
    unfold pushAssoc at hp
    split at hp
    · rcases List.mem_cons.mp hp with h1 | h1
      · simp [h1]
      · exact hall p (List.mem_cons_of_mem _ h1)
    · rcases List.mem_cons.mp hp with h1 | h1
      · exact hall p (h1 ▸ List.mem_cons_self _ _)
      · exact ih (fun q hq => hall q (List.mem_cons_of_mem _ hq)) p h1

/-- C10: implicit invariants of buildSessions — output session ids are
pairwise distinct, each id is title + "|||" + start_time, and every
exercise key of a session maps to a non-empty list of sets. -/
theorem C10_buildSessions_invariants (rows : List RawRow) :
    ((buildSessions rows).map Session.id).Nodup ∧
    ∀ s ∈ buildSessions rows,
      s.id = s.title ++ "|||" ++ s.start_time ∧ ∀ p ∈ s.exercises, p.2 ≠ [] := by
  constructor
  · have hperm := (sortCmp_perm sessDescCmp (rows.foldl (fun a r => addRow r a) [])).map
      Session.id
    exact (hperm.nodup_iff).mpr (foldl_addRow_nodup rows [] (by simp))
  · intro s hs
    have hs' : s ∈ rows.foldl (fun a r => addRow r a) [] := mem_sortCmp.mp hs
    refine foldl_addRow_preserve
      (fun s => s.id = s.title ++ "|||" ++ s.start_time ∧ ∀ p ∈ s.exercises, p.2 ≠ [])
      ?_ rows [] ?_ (by simp) s hs'
    · intro r t ⟨h1, h2⟩
      exact ⟨h1, pushAssoc_ne_nil _ _ _ h2⟩
    · intro r _
      refine ⟨rfl, ?_⟩
      intro p hp
      simp [newSession] at hp
      simp [hp]

/-- Convenience builder for concrete raw rows. -/
def mkRow (t st ex : String) (w rp : Option ℚ) : RawRow :=
  { title := t, start_time := st, end_time := "", description := "",
    exercise_title := ex, exercise_notes := "", set_index := none,
    weight_lbs := w, reps := rp, distance_miles := none,
    duration_seconds := none, rpe := none }

theorem C10_buildSessions_invariants_witness :
    newSession (mkRow "t" "2024-01-02" "Bench" (some 100) (some 5))
        ∈ buildSessions [mkRow "t" "2024-01-02" "Bench" (some 100) (some 5)] ∧
    ((newSession (mkRow "t" "2024-01-02" "Bench" (some 100) (some 5))).id
        = (newSession (mkRow "t" "2024-01-02" "Bench" (some 100) (some 5))).title ++ "|||"
          ++ (newSession (mkRow "t" "2024-01-02" "Bench" (some 100) (some 5))).start_time ∧
      ∀ p ∈ (newSession (mkRow "t" "2024-01-02" "Bench" (some 100) (some 5))).exercises,
        p.2 ≠ []) :=
  ⟨by decide,
    (C10_buildSessions_invariants [mkRow "t" "2024-01-02" "Bench" (some 100) (some 5)]).2
      _ (by decide)⟩

/-- Timestamp of a session for order statements; only used under the
hypothesis that the date parses. -/
def sessTime (s : Session) : ℤ := (parseDate s.start_time).getD 0

theorem insertCmp_sorted_desc {l : List Session} {a : Session}
    (hall : ∀ x ∈ l, (parseDate x.start_time).isSome)
    (ha : (parseDate a.start_time).isSome)
    (hs : l.Pairwise (fun x y => sessTime y ≤ sessTime x)) :
    (insertCmp sessDescCmp a l).Pairwise (fun x y => sessTime y ≤ sessTime x) := by
  induction l with
  | nil => simp [insertCmp]
  | cons b t ih =>
    obtain ⟨ta, hta⟩ := Option.isSome_iff_exists.mp ha
    obtain ⟨tb, htb⟩ := Option.isSome_iff_exists.mp (hall b (List.mem_cons_self b t))
    have hcab : sessDescCmp a b = ((tb - ta : ℤ) : ℚ) := by
      unfold sessDescCmp
      rw [hta, htb]
    have hkey : sessTime a = ta := by simp [sessTime, hta]
    have hkeyb : sessTime b = tb := by simp [sessTime, htb]
    rw [List.pairwise_cons] at hs
    obtain ⟨hb, ht⟩ := hs
    unfold insertCmp
    split
    · rename_i hle
      rw [hcab] at hle
      have htble : tb ≤ ta := by
        have h0 : (tb - ta : ℤ) ≤ 0 := by exact_mod_cast hle
        omega
      refine List.pairwise_cons.mpr ⟨?_, List.pairwise_cons.mpr ⟨hb, ht⟩⟩
      intro y hy
      rcases List.mem_cons.mp hy with h1 | h1
      · rw [h1, hkey, hkeyb]; exact htble
      · have h2 := hb y h1
        rw [hkey]
        rw [hkeyb] at h2
        omega
    · rename_i hgt
      rw [hcab] at hgt
      have htalt : ta < tb := by
        by_contra hcon
        push_neg at hcon
        exact hgt (by exact_mod_cast sub_nonpos.mpr (by exact_mod_cast hcon))
      refine List.pairwise_cons.mpr ⟨?_, ih (fun x hx => hall x (List.mem_cons_of_mem b hx)) ht⟩
      intro y hy
      have hy' : y ∈ a :: t := (insertCmp_perm sessDescCmp a t).mem_iff.mp hy
      rcases List.mem_cons.mp hy' with h1 | h1
      · rw [h1, hkey, hkeyb]; omega
      · exact hb y h1

theorem sortCmp_sorted_desc :
    ∀ l : List Session, (∀ x ∈ l, (parseDate x.start_time).isSome) →
      (sortCmp sessDescCmp l).Pairwise (fun x y => sessTime y ≤ sessTime x) := by
  intro l
  induction l with
  | nil => intro _; simp [sortCmp]
  | cons a t ih =>
    intro hall
    unfold sortCmp
    refine insertCmp_sorted_desc ?_ (hall a (List.mem_cons_self a t)) ?_
    · intro x hx
      exact hall x (List.mem_cons_of_mem a (mem_sortCmp.mp hx))
    · exact ih (fun x hx => hall x (List.mem_cons_of_mem a hx))

/-- C7 (corrected): when every row's start_time parses as a date, the
buildSessions output is sorted by start_time descending. (The claim's
clause about unparsable dates sorting as the minimum is refuted by
C7_counterexample: an invalid date makes the comparator NaN, which sorts
as equal-to-everything, so such sessions keep their insertion position
instead of sinking to the end.) -/
theorem C7_buildSessions_sorted_desc (rows : List RawRow)
    (h : ∀ r ∈ rows, (parseDate r.start_time).isSome) :
    (buildSessions rows).Pairwise (fun a b => sessTime b ≤ sessTime a) := by
  unfold buildSessions
  refine sortCmp_sorted_desc _ ?_
  intro x hx
  refine foldl_addRow_preserve (fun s => (parseDate s.start_time).isSome)
    ?_ rows [] ?_ (by simp) x hx
  · intro r s hsome
    exact hsome
  · intro r hr
    exact h r hr

theorem C7_buildSessions_sorted_desc_witness :
    (buildSessions [mkRow "a" "2024-01-01" "Bench" (some 100) (some 5),
        mkRow "b" "2024-02-01" "Bench" (some 110) (some 5)]).Pairwise
      (fun a b => sessTime b ≤ sessTime a) :=
  C7_buildSessions_sorted_desc _ (by decide)

/-- C7 counterexample: with an unparsable first start_time, the comparator
returns NaN (coerced to +0) against every other session, so the invalid-date
session stays first in the output; the claim demands it sort as the minimum,
i.e. come last in the descending order. -/
theorem C7_counterexample :
    parseDate "notadate" = none ∧ (parseDate "2024-01-01").isSome = true ∧
    (buildSessions [mkRow "a" "notadate" "Bench" (some 100) (some 5),
        mkRow "b" "2024-01-01" "Bench" (some 110) (some 5)]).map Session.start_time
      = ["notadate", "2024-01-01"] := by
  refine ⟨rfl, rfl, ?_⟩
  decide

/-- Timeline point produced by computeExerciseProgression (both the server
and the client variant share this shape; the client names the 1RM fields
epley/brzycki as the server response does). -/
structure TimelinePoint where
  sessionId : String
  date : String
  maxWeight : Option ℚ
  epley : Option ℚ
  brzycki : Option ℚ
  totalSets : ℕ
deriving Repr, DecidableEq

/-- JS arithmetic coercion of a nullable number: null becomes 0. -/
def numOr0 : Option ℚ → ℚ
  | some v => v
  | none => 0

/-- Association-list read, s.exercises[name]: a missing key is undefined
(none) and skips the session; an empty bucket is a truthy array. -/
def assocFind (k : String) : List (String × β) → Option β
  | [] => none
  | (k', v) :: rest => if k' = k then some v else assocFind k rest

/-- The running per-session aggregates of the progression loop. -/
structure SessionAgg where
  maxW : Option ℚ
  epley : Option ℚ
  brzycki : Option ℚ
  totalSets : ℕ
deriving Repr, DecidableEq

/-- The source's running-max update: if (acc == null || v > acc) acc = v. -/
def aggMax (cur : Option ℚ) (v : ℚ) : Option ℚ :=
  match cur with
  | none => some v
  | some m => some (if v > m then v else m)

/-- if (v != null && (acc == null || v > acc)) acc = v. -/
def aggMaxOpt (cur : Option ℚ) : Option ℚ → Option ℚ
  | none => cur
  | some v => aggMax cur v

/-- One set of the server-side progression loop (src/src/server.ts): when
the weight is numeric, Epley and Brzycki are computed unconditionally —
a null reps value is coerced to 0 by JS arithmetic — and sets with numeric
reps are counted. -/
def progStepServer (acc : SessionAgg) (st : WSet) : SessionAgg :=
  let acc1 :=
    match st.weight_lbs with
    | some w =>
      { acc with
        maxW := aggMax acc.maxW w,
        epley := aggMax acc.epley (epley_formula w (numOr0 st.reps)),
        brzycki := aggMax acc.brzycki (brzycki_formula w (numOr0 st.reps)) }
    | none => acc
  match st.reps with
  | some _ => { acc1 with totalSets := acc1.totalSets + 1 }
  | none => acc1

/-- One set of the client-side progression loop (public/app.js): Epley and
Brzycki are computed only when set.reps is truthy (a numeric, nonzero
value); otherwise they are null and skipped by the e != null guard. -/
def progStepClient (acc : SessionAgg) (st : WSet) : SessionAgg :=
  let acc1 :=
    match st.weight_lbs with
    | some w =>
      let e : Option ℚ :=
        match st.reps with
        | some r => if r ≠ 0 then some (epley_formula w r) else none
        | none => none
      let b : Option ℚ :=
        match st.reps with
        | some r => if r ≠ 0 then some (brzycki_formula w r) else none
        | none => none
      { acc with
        maxW := aggMax acc.maxW w,
        epley := aggMaxOpt acc.epley e,
        brzycki := aggMaxOpt acc.brzycki b }
    | none => acc
  match st.reps with
  | some _ => { acc1 with totalSets := acc1.totalSets + 1 }
  | none => acc1

def emptyAgg : SessionAgg := ⟨none, none, none, 0⟩

def mkTimelinePoint (s : Session) (a : SessionAgg) : TimelinePoint :=
  { sessionId := s.id, date := s.start_time, maxWeight := a.maxW,
    epley := a.epley, brzycki := a.brzycki, totalSets := a.totalSets }

/-- Ascending-by-date timeline comparator:
(a, b) => new Date(a.date).getTime() - new Date(b.date).getTime(). -/
def timeAscCmp (a b : TimelinePoint) : ℚ :=
  match parseDate a.date, parseDate b.date with
  | some ta, some tb => ((ta - tb : ℤ) : ℚ)
  | _, _ => 0

/-- src/src/server.ts computeExerciseProgression. -/
def computeExerciseProgression (sessions : List Session) (name : String) :
    List TimelinePoint :=
  sortCmp timeAscCmp
    (sessions.filterMap (fun s =>
      (assocFind name s.exercises).map (fun sets =>
        mkTimelinePoint s (sets.foldl progStepServer emptyAgg))))

/-- public/app.js computeExerciseProgression (the client-side variant). -/
def computeExerciseProgressionClient (sessions : List Session) (name : String) :
    List TimelinePoint :=
  sortCmp timeAscCmp
    (sessions.filterMap (fun s =>
      (assocFind name s.exercises).map (fun sets =>
        mkTimelinePoint s (sets.foldl progStepClient emptyAgg))))

/-- The Epley estimates of the sets whose reps are truthy and whose weight
is numeric — the only sets the client-side loop lets into the epley max. -/
def epleyCands (sets : List WSet) : List ℚ :=
  sets.filterMap (fun st =>
    match st.weight_lbs, st.reps with
    | some w, some r => if r ≠ 0 then some (epley_formula w r) else none
    | _, _ => none)

def brzyckiCands (sets : List WSet) : List ℚ :=
  sets.filterMap (fun st =>
    match st.weight_lbs, st.reps with
    | some w, some r => if r ≠ 0 then some (brzycki_formula w r) else none
    | _, _ => none)

def weightCands (sets : List WSet) : List ℚ := sets.filterMap (fun st => st.weight_lbs)

/-- v? is the maximum of l: none exactly when l is empty, else a member
that dominates every element. -/
def isMaxOf (v? : Option ℚ) (l : List ℚ) : Prop :=
  match v? with
  | none => l = []
  | some v => v ∈ l ∧ ∀ u ∈ l, u ≤ v

theorem foldl_aggMax_none {l : List ℚ} :
    ∀ {acc : Option ℚ}, l.foldl aggMax acc = none → acc = none ∧ l = [] := by
  induction l with
  | nil => intro acc h; exact ⟨h, rfl⟩
  | cons v t ih =>
    intro acc h
    simp only [List.foldl_cons] at h
    have := ih h
    cases acc <;> simp [aggMax] at this ⊢

theorem foldl_aggMax_spec (l : List ℚ) :
    ∀ acc : Option ℚ, ∀ v : ℚ, l.foldl aggMax acc = some v →
      (v ∈ l ∨ acc = some v) ∧ (∀ u ∈ l, u ≤ v) ∧ (∀ m, acc = some m → m ≤ v) := by
  induction l with
  | nil =>
    intro acc v h
    simp only [List.foldl_nil] at h
    exact ⟨Or.inr h, by simp, fun m hm => le_of_eq (by rw [hm] at h; exact (Option.some_inj.mp h).symm ▸ rfl)⟩
  | cons w t ih =>
    intro acc v h
    simp only [List.foldl_cons] at h
    obtain ⟨h1, h2, h3⟩ := ih (aggMax acc w) v h
    have hw : w ≤ v ∧ ∀ m, acc = some m → m ≤ v := by
      cases acc with
      | none =>
        have := h3 w (by simp [aggMax])
        exact ⟨this, by simp⟩
      | some m =>
        by_cases hgt : w > m
        · have := h3 (if w > m then w else m) rfl
          rw [if_pos hgt] at this
          exact ⟨this, fun m' hm' => by
            cases Option.some_inj.mp hm'
            linarith⟩
        · have := h3 (if w > m then w else m) rfl
          rw [if_neg hgt] at this
          push_neg at hgt
          exact ⟨le_trans hgt this, fun m' hm' => by
            cases Option.some_inj.mp hm'
            exact this⟩
    refine ⟨?_, ?_, hw.2⟩
    · rcases h1 with h1 | h1
      · exact Or.inl (List.mem_cons_of_mem w h1)
      · cases acc with
        | none =>
          simp [aggMax] at h1
          exact Or.inl (h1 ▸ List.mem_cons_self w t)
        | some m =>
          simp only [aggMax, Option.some_inj] at h1
          by_cases hgt : w > m
          · rw [if_pos hgt] at h1
            exact Or.inl (h1 ▸ List.mem_cons_self w t)
          · rw [if_neg hgt] at h1
            exact Or.inr (congrArg some h1)
    · intro u hu
      rcases List.mem_cons.mp hu with h4 | h4
      · exact h4 ▸ hw.1
      · exact h2 u h4

theorem isMaxOf_foldl_aggMax (l : List ℚ) : isMaxOf (l.foldl aggMax none) l := by
  cases hres : l.foldl aggMax none with
  | none =>
    have := foldl_aggMax_none hres
    simp [isMaxOf, this.2]
  | some v =>
    obtain ⟨h1, h2, _⟩ := foldl_aggMax_spec l none v hres
    rcases h1 with h1 | h1
    · exact ⟨h1, h2⟩
    · cases h1

theorem progStepClient_epley (acc : SessionAgg) (st : WSet) :
    (progStepClient acc st).epley
      = aggMaxOpt acc.epley
          (match st.weight_lbs, st.reps with
           | some w, some r => if r ≠ 0 then some (epley_formula w r) else none
           | _, _ => none) := by
  unfold progStepClient
  cases st.weight_lbs <;> cases st.reps <;> simp [aggMaxOpt]

theorem progStepClient_brzycki (acc : SessionAgg) (st : WSet) :
    (progStepClient acc st).brzycki
      = aggMaxOpt acc.brzycki
          (match st.weight_lbs, st.reps with
           | some w, some r => if r ≠ 0 then some (brzycki_formula w r) else none
           | _, _ => none) := by
  unfold progStepClient
  cases st.weight_lbs <;> cases st.reps <;> simp [aggMaxOpt]

theorem progStepClient_maxW (acc : SessionAgg) (st : WSet) :
    (progStepClient acc st).maxW = aggMaxOpt acc.maxW st.weight_lbs := by
  unfold progStepClient
  cases st.weight_lbs <;> cases st.reps <;> simp [aggMaxOpt]

theorem foldl_progStepClient_epley (sets : List WSet) :
    ∀ acc : SessionAgg,
      (sets.foldl progStepClient acc).epley = (epleyCands sets).foldl aggMax acc.epley := by
  induction sets with
  | nil => intro acc; simp [epleyCands]
  | cons st t ih =>
    intro acc
    simp only [List.foldl_cons, epleyCands, List.filterMap_cons]
    rw [ih]
    cases hw : st.weight_lbs with
    | none => simp [progStepClient_epley, hw, aggMaxOpt, epleyCands]
    | some w =>
      cases hr : st.reps with
      | none => simp [progStepClient_epley, hw, hr, aggMaxOpt, epleyCands]
      | some r =>
        by_cases h0 : r ≠ 0 <;>
          simp [progStepClient_epley, hw, hr, h0, aggMaxOpt, epleyCands]

theorem foldl_progStepClient_brzycki (sets : List WSet) :
    ∀ acc : SessionAgg,
      (sets.foldl progStepClient acc).brzycki
        = (brzyckiCands sets).foldl aggMax acc.brzycki := by
  induction sets with
  | nil => intro acc; simp [brzyckiCands]
  | cons st t ih =>
    intro acc
    simp only [List.foldl_cons, brzyckiCands, List.filterMap_cons]
    rw [ih]
    cases hw : st.weight_lbs with
    | none => simp [progStepClient_brzycki, hw, aggMaxOpt, brzyckiCands]
    | some w =>
      cases hr : st.reps with
      | none => simp [progStepClient_brzycki, hw, hr, aggMaxOpt, brzyckiCands]
      | some r =>
        by_cases h0 : r ≠ 0 <;>
          simp [progStepClient_brzycki, hw, hr, h0, aggMaxOpt, brzyckiCands]

theorem foldl_progStepClient_maxW (sets : List WSet) :
    ∀ acc : SessionAgg,
      (sets.foldl progStepClient acc).maxW = (weightCands sets).foldl aggMax acc.maxW := by
  induction sets with
  | nil => intro acc; simp [weightCands]
  | cons st t ih =>
    intro acc
    simp only [List.foldl_cons, weightCands, List.filterMap_cons]
    rw [ih]
    cases hw : st.weight_lbs with
    | none => simp [progStepClient_maxW, hw, aggMaxOpt, weightCands]
    | some w => simp [progStepClient_maxW, hw, aggMaxOpt, weightCands]

/-- C2 (corrected, client side): in the client-side
computeExerciseProgression, a set whose reps is null (or zero — JS
truthiness) contributes only to maxWeight: the per-session epley and
brzycki maxima range exactly over the sets with a truthy numeric reps
value, while maxWeight ranges over all sets with a numeric weight. -/
theorem C2_client_progression_skips_null_reps (sessions : List Session)
    (name : String) (pt : TimelinePoint)
    (hpt : pt ∈ computeExerciseProgressionClient sessions name) :
    ∃ s ∈ sessions, ∃ sets, assocFind name s.exercises = some sets ∧
      pt.sessionId = s.id ∧ pt.date = s.start_time ∧
      isMaxOf pt.epley (epleyCands sets) ∧
      isMaxOf pt.brzycki (brzyckiCands sets) ∧
      isMaxOf pt.maxWeight (weightCands sets) := by
  have h1 : pt ∈ sessions.filterMap (fun s =>
      (assocFind name s.exercises).map (fun sets =>
        mkTimelinePoint s (sets.foldl progStepClient emptyAgg))) :=
    mem_sortCmp.mp hpt
  obtain ⟨s, hs, hmap⟩ := List.mem_filterMap.mp h1
  cases hfind : assocFind name s.exercises with
  | none => rw [hfind] at hmap; cases hmap
  | some sets =>
    rw [hfind] at hmap
    simp only [Option.map_some', Option.some_inj] at hmap
    refine ⟨s, hs, sets, hfind, ?_, ?_, ?_, ?_, ?_⟩ <;> rw [← hmap]
    · rfl
    · rfl
    · show isMaxOf (sets.foldl progStepClient emptyAgg).epley (epleyCands sets)
      rw [foldl_progStepClient_epley]
      exact isMaxOf_foldl_aggMax _
    · show isMaxOf (sets.foldl progStepClient emptyAgg).brzycki (brzyckiCands sets)
      rw [foldl_progStepClient_brzycki]
      exact isMaxOf_foldl_aggMax _
    · show isMaxOf (sets.foldl progStepClient emptyAgg).maxW (weightCands sets)
      rw [foldl_progStepClient_maxW]
      exact isMaxOf_foldl_aggMax _

def c2Set : WSet :=
  { set_index := none, weight_lbs := some 200, reps := none,
    distance_miles := none, duration_seconds := none, rpe := none,
    exercise_notes := "" }

def c2Session : Session :=
  { id := "t|||2024-01-01", title := "t", start_time := "2024-01-01",
    end_time := "", description := "", exercises := [("Bench", [c2Set])] }

/-- C2 counterexample (server side): src/src/server.ts
computeExerciseProgression computes Epley/Brzycki for a weighted set even
when its reps is null — JS coerces null to 0, so the set contributes
epley = weight and brzycki = weight / 1.0278 — whereas the claim says such
a set is skipped entirely (with no numeric-reps set, both maxima would
have to be null). -/
theorem C2_server_counterexample :
    c2Set.reps = none ∧
    (computeExerciseProgression [c2Session] "Bench").map (fun p => p.epley)
      = [some 200] ∧
    (computeExerciseProgression [c2Session] "Bench").map (fun p => p.brzycki)
      = [some (200 / 1.0278)] := by
  refine ⟨rfl, ?_, ?_⟩ <;>
    norm_num [computeExerciseProgression, sortCmp, insertCmp, c2Session, c2Set,
      assocFind, progStepServer, emptyAgg, aggMax, mkTimelinePoint, epley_formula,
      brzycki_formula, numOr0]

def c2bSet1 : WSet :=
  { set_index := none, weight_lbs := some 100, reps := none,
    distance_miles := none, duration_seconds := none, rpe := none,
    exercise_notes := "" }

def c2bSet2 : WSet :=
  { set_index := none, weight_lbs := some 90, reps := some 5,
    distance_miles := none, duration_seconds := none, rpe := none,
    exercise_notes := "" }

def c2bSession : Session :=
  { id := "t|||2024-01-01", title := "t", start_time := "2024-01-01",
    end_time := "", description := "", exercises := [("Bench", [c2bSet1, c2bSet2])] }

theorem C2_client_progression_skips_null_reps_witness :
    mkTimelinePoint c2bSession ([c2bSet1, c2bSet2].foldl progStepClient emptyAgg)
        ∈ computeExerciseProgressionClient [c2bSession] "Bench" ∧
    ∃ s ∈ [c2bSession], ∃ sets, assocFind "Bench" s.exercises = some sets ∧
      (mkTimelinePoint c2bSession
          ([c2bSet1, c2bSet2].foldl progStepClient emptyAgg)).sessionId = s.id ∧
      (mkTimelinePoint c2bSession
          ([c2bSet1, c2bSet2].foldl progStepClient emptyAgg)).date = s.start_time ∧
      isMaxOf (mkTimelinePoint c2bSession
          ([c2bSet1, c2bSet2].foldl progStepClient emptyAgg)).epley (epleyCands sets) ∧
      isMaxOf (mkTimelinePoint c2bSession
          ([c2bSet1, c2bSet2].foldl progStepClient emptyAgg)).brzycki (brzyckiCands sets) ∧
      isMaxOf (mkTimelinePoint c2bSession
          ([c2bSet1, c2bSet2].foldl progStepClient emptyAgg)).maxWeight (weightCands sets) :=
  have hmem : mkTimelinePoint c2bSession ([c2bSet1, c2bSet2].foldl progStepClient emptyAgg)
      ∈ computeExerciseProgressionClient [c2bSession] "Bench" := by
    simp [computeExerciseProgressionClient, sortCmp, insertCmp, assocFind, c2bSession]
  ⟨hmem, C2_client_progression_skips_null_reps [c2bSession] "Bench" _ hmem⟩

/-- An input point of the regression engine: {week, value} with value
possibly null/undefined/NaN (modelled none). -/
structure RegPoint where
  week : ℚ
  value : Option ℚ
deriving Repr, DecidableEq

/-- public/danfo-analytics.js regression result. -/
structure RegressionModel where
  a : ℚ
  b : ℚ
  rSquared : ℚ
  standardError : ℚ
  dataPoints : ℕ
deriving Repr, DecidableEq

/-- The validity filter of computeLogRegression:
d.week > 0 && d.value !== null && d.value !== undefined && !isNaN(d.value). -/
def validRegPoints (data : List RegPoint) : List RegPoint :=
  data.filter (fun d => 0 < d.week ∧ d.value ≠ none)

/-- public/danfo-analytics.js computeLogRegression: least squares of
y = a * ln(week) + b on the valid points; the accumulation loops are
written as sums of maps. -/
def computeLogRegression (data : List RegPoint) : Option RegressionModel :=
  if data.length < 2 then none
  else
    let validData := validRegPoints data
    if validData.length < 2 then none
    else
      let n : ℚ := validData.length
      let lnX : List ℚ := validData.map (fun d => ratLog d.week)
      let y : List ℚ := validData.map (fun d => numOr0 d.value)
      let meanLnX : ℚ := lnX.sum / n
      let meanY : ℚ := y.sum / n
      let numerator : ℚ := ((lnX.zip y).map (fun p => (p.1 - meanLnX) * (p.2 - meanY))).sum
      let denominator : ℚ := (lnX.map (fun x => (x - meanLnX) ^ 2)).sum
      let a : ℚ := if denominator ≠ 0 then numerator / denominator else 0
      let b : ℚ := meanY - a * meanLnX
      let ssRes : ℚ := ((lnX.zip y).map (fun p => (p.2 - (a * p.1 + b)) ^ 2)).sum
      let ssTot : ℚ := (y.map (fun v => (v - meanY) ^ 2)).sum
      let rSquared : ℚ := if ssTot ≠ 0 then 1 - ssRes / ssTot else 0
      let standardError : ℚ := ratSqrt (ssRes / max 1 (n - 2))
      some { a := a, b := b, rSquared := rSquared, standardError := standardError,
             dataPoints := validData.length }

theorem list_sum_all_eq {l : List ℚ} {c : ℚ} (h : ∀ x ∈ l, x = c) :
    l.sum = l.length * c := by
  induction l with
  | nil => simp
  | cons x t ih =>
    simp only [List.sum_cons, List.length_cons]
    rw [h x (List.mem_cons_self x t), ih (fun x hx => h x (List.mem_cons_of_mem _ hx))]
    push_cast
    ring

/-- C6: computeLogRegression returns null exactly when fewer than 2 points
survive the validity filter; otherwise it returns a model, and when all
surviving values are identical the model has slope 0 and rSquared 0
(never NaN, never a thrown exception). -/
theorem C6_computeLogRegression_guards (data : List RegPoint) :
    ((validRegPoints data).length < 2 → computeLogRegression data = none) ∧
    (2 ≤ (validRegPoints data).length → ∃ m, computeLogRegression data = some m ∧
      ((∀ u ∈ validRegPoints data, ∀ v ∈ validRegPoints data,
          numOr0 u.value = numOr0 v.value) →
        m.rSquared = 0 ∧ m.a = 0)) := by
  constructor
  · intro hlt
    unfold computeLogRegression
    split
    · rfl
    · rw [if_pos hlt]
  · intro hge
    have hdata : ¬ data.length < 2 := by
      have hle : (validRegPoints data).length ≤ data.length :=
        List.length_filter_le _ _
      omega
    unfold computeLogRegression
    rw [if_neg hdata, if_neg (by omega)]
    refine ⟨_, rfl, ?_⟩
    intro hconst
    have hnpos : (0 : ℚ) < (validRegPoints data).length := by
      have : 0 < (validRegPoints data).length := by omega
      exact_mod_cast this
    obtain ⟨d0, hd0⟩ : ∃ d0, d0 ∈ validRegPoints data := by
      cases hv : validRegPoints data with
      | nil => rw [hv] at hge; simp at hge
      | cons d0 t => exact ⟨d0, hv ▸ List.mem_cons_self d0 t⟩
    set c := numOr0 d0.value with hc
    have hally : ∀ v ∈ (validRegPoints data).map (fun d => numOr0 d.value), v = c := by
      intro v hv
      obtain ⟨d, hd, hdv⟩ := List.mem_map.mp hv
      rw [← hdv]
      exact hconst d hd d0 hd0
    have hsum : ((validRegPoints data).map (fun d => numOr0 d.value)).sum
        = (validRegPoints data).length * c := by
      rw [list_sum_all_eq hally]
      simp
    have hmeanY : ((validRegPoints data).map (fun d => numOr0 d.value)).sum
        / ((validRegPoints data).length : ℚ) = c := by
      rw [hsum]
      field_simp
    have hzip : ∀ p ∈ ((validRegPoints data).map (fun d => ratLog d.week)).zip
        ((validRegPoints data).map (fun d => numOr0 d.value)), p.2 = c := by
      intro p hp
      exact hally p.2 (List.of_mem_zip hp).2
    have hnum : (((((validRegPoints data).map (fun d => ratLog d.week)).zip
        ((validRegPoints data).map (fun d => numOr0 d.value))).map
          (fun p => (p.1 - ((validRegPoints data).map (fun d => ratLog d.week)).sum
            / ((validRegPoints data).length : ℚ)) *
            (p.2 - ((validRegPoints data).map (fun d => numOr0 d.value)).sum
            / ((validRegPoints data).length : ℚ))))).sum = 0 := by
      refine List.sum_eq_zero ?_
      intro x hx
      obtain ⟨p, hp, hpx⟩ := List.mem_map.mp hx
      rw [← hpx, hmeanY, hzip p hp]
      ring
    have hssTot : ((((validRegPoints data).map (fun d => numOr0 d.value)).map
        (fun v => (v - ((validRegPoints data).map (fun d => numOr0 d.value)).sum
          / ((validRegPoints data).length : ℚ)) ^ 2))).sum = 0 := by
      refine List.sum_eq_zero ?_
      intro x hx
      obtain ⟨v, hv, hvx⟩ := List.mem_map.mp hx
      rw [← hvx, hmeanY, hally v hv]
      ring
    constructor
    · show (if _ ≠ (0 : ℚ) then _ else (0 : ℚ)) = 0
      rw [if_neg]
      simp only [hssTot, ne_eq, not_not]
    · show (if _ ≠ (0 : ℚ) then _ else (0 : ℚ)) = 0
      split
      · rw [hnum, zero_div]
      · rfl

def c6Data : List RegPoint :=
  [⟨1, some 100⟩, ⟨2, some 100⟩, ⟨3, some 100⟩, ⟨4, some 100⟩]

theorem C6_computeLogRegression_guards_witness :
    2 ≤ (validRegPoints c6Data).length ∧
    ∃ m, computeLogRegression c6Data = some m ∧ m.rSquared = 0 ∧ m.a = 0 := by
  refine ⟨by decide, ?_⟩
  obtain ⟨m, hm, himp⟩ := (C6_computeLogRegression_guards c6Data).2 (by decide)
  obtain ⟨h1, h2⟩ := himp (by decide)
  exact ⟨m, hm, h1, h2⟩

/-- One (date, maxWeightInSession) data point of the trend analyzer. -/
structure TrendPt where
  date : String
  weight : ℚ
deriving Repr, DecidableEq

/-- An improving/declining output entry {exercise, change}. -/
structure TrendEntry where
  exercise : String
  change : ℚ
deriving Repr, DecidableEq

/-- A stalling output entry {exercise, weeks} (weeks is hardcoded 4). -/
structure StallEntry where
  exercise : String
  weeks : ℕ
deriving Repr, DecidableEq

/-- Math.max over the numeric weights of a session's sets, 0 when there is
none (the source guards with validWeights.length > 0 ? ... : 0). -/
def sessionMaxWeight (sets : List WSet) : ℚ :=
  match weightCands sets with
  | [] => 0
  | v :: t => t.foldl max v

/-- The data point a session contributes for one exercise: pushed only when
the session max weight is positive. -/
def sessionTrendPt (s : Session) (sets : List WSet) : Option TrendPt :=
  let mw := sessionMaxWeight sets
  if 0 < mw then some ⟨s.start_time, mw⟩ else none

/-- exerciseData update: if (!m.has(ex)) m.set(ex, []); then conditionally
push — Map insertion order, update in place. -/
def trendAdd (ex : String) (pt? : Option TrendPt) :
    List (String × List TrendPt) → List (String × List TrendPt)
  | [] => [(ex, pt?.toList)]
  | (k, pts) :: rest =>
    if k = ex then (k, pts ++ pt?.toList) :: rest
    else (k, pts) :: trendAdd ex pt? rest

/-- The grouping pass of analyzeTrainingTrends: for every session and every
exercise bucket, record the session's max weight when positive. -/
def seriesStep (m : List (String × List TrendPt)) (s : Session) :
    List (String × List TrendPt) :=
  s.exercises.foldl (fun m' p => trendAdd p.1 (sessionTrendPt s p.2) m') m

def exerciseSeries (sessions : List Session) : List (String × List TrendPt) :=
  sessions.foldl seriesStep []

/-- Ascending date sort of one exercise's data points,
(a, b) => new Date(a.date) - new Date(b.date). -/
def trendPtAscCmp (a b : TrendPt) : ℚ :=
  match parseDate a.date, parseDate b.date with
  | some ta, some tb => ((ta - tb : ℤ) : ℚ)
  | _, _ => 0

def sortedData (d : List TrendPt) : List TrendPt := sortCmp trendPtAscCmp d

/-- data.slice(-4): the most recent four points. -/
def recentOf (d : List TrendPt) : List TrendPt :=
  (sortedData d).drop ((sortedData d).length - 4)

/-- data.slice(-8, -4): up to four points preceding the most recent four. -/
def previousOf (d : List TrendPt) : List TrendPt :=
  ((sortedData d).take ((sortedData d).length - 4)).drop ((sortedData d).length - 8)

/-- data.slice(-8): the window the stalling check inspects. -/
def last8Of (d : List TrendPt) : List TrendPt :=
  (sortedData d).drop ((sortedData d).length - 8)

/-- recentAvg: mean weight of the most recent four points. -/
def recentAvgOf (d : List TrendPt) : ℚ :=
  ((recentOf d).map (fun x => x.weight)).sum / (recentOf d).length

/-- previousAvg: mean weight of the preceding block. -/
def previousAvgOf (d : List TrendPt) : ℚ :=
  ((previousOf d).map (fun x => x.weight)).sum / (previousOf d).length

/-- changePercent = (recentAvg - previousAvg) / previousAvg * 100. -/
def changePercentOf (d : List TrendPt) : ℚ :=
  (recentAvgOf d - previousAvgOf d) / previousAvgOf d * 100

/-- One exercise of the analysis loop of analyzeTrainingTrends. -/
def analyzeStep (acc : List TrendEntry × List StallEntry × List TrendEntry)
    (p : String × List TrendPt) :
    List TrendEntry × List StallEntry × List TrendEntry :=
  if p.2.length < 4 then acc
  else if (previousOf p.2).length = 0 then acc
  else if 2 < changePercentOf p.2 then
    (acc.1 ++ [⟨p.1, round1 (changePercentOf p.2)⟩], acc.2.1, acc.2.2)
  else if changePercentOf p.2 < -2 then
    (acc.1, acc.2.1, acc.2.2 ++ [⟨p.1, round1 (changePercentOf p.2)⟩])
  else if (last8Of p.2).all
      (fun x => |x.weight - recentAvgOf p.2| < recentAvgOf p.2 * 0.03) then
    (acc.1, acc.2.1 ++ [⟨p.1, 4⟩], acc.2.2)
  else acc

/-- public/danfo-analytics.js analyzeTrainingTrends: returns the triple
(improving, stalling, declining); improving sorted by change descending,
declining by change ascending, each capped at 5. -/
def analyzeTrainingTrends (sessions : List Session) :
    List TrendEntry × List StallEntry × List TrendEntry :=
  let res := (exerciseSeries sessions).foldl analyzeStep ([], [], [])
  ((sortCmp (fun a b => b.change - a.change) res.1).take 5,
   res.2.1.take 5,
   (sortCmp (fun a b => a.change - b.change) res.2.2).take 5)

theorem previousOf_length_ne_zero {d : List TrendPt}
    (h : (previousOf d).length ≠ 0) : 5 ≤ d.length := by
  have hlen : (sortedData d).length = d.length :=
    (sortCmp_perm trendPtAscCmp d).length_eq
  unfold previousOf at h
  rw [List.length_drop, List.length_take, hlen] at h
  omega

theorem analyzeStep_mem_improving {acc : List TrendEntry × List StallEntry × List TrendEntry}
    {p : String × List TrendPt} {e : TrendEntry} (h : e ∈ (analyzeStep acc p).1) :
    e ∈ acc.1 ∨ (5 ≤ p.2.length ∧ e.exercise = p.1) := by
  unfold analyzeStep at h
  split at h
  · exact Or.inl h
  · split at h
    · exact Or.inl h
    · rename_i h4 hprev
      have h5 : 5 ≤ p.2.length := previousOf_length_ne_zero hprev
      split at h
      · rcases List.mem_append.mp h with h1 | h1
        · exact Or.inl h1
        · simp at h1
          exact Or.inr ⟨h5, by rw [h1]⟩
      · split at h
        · exact Or.inl h
        · split at h
          · exact Or.inl h
          · exact Or.inl h

theorem analyzeStep_mem_stalling {acc : List TrendEntry × List StallEntry × List TrendEntry}
    {p : String × List TrendPt} {e : StallEntry} (h : e ∈ (analyzeStep acc p).2.1) :
    e ∈ acc.2.1 ∨ (5 ≤ p.2.length ∧ e.exercise = p.1) := by
  unfold analyzeStep at h
  split at h
  · exact Or.inl h
  · split at h
    · exact Or.inl h
    · rename_i h4 hprev
      have h5 : 5 ≤ p.2.length := previousOf_length_ne_zero hprev
      split at h
      · exact Or.inl h
      · split at h
        · exact Or.inl h
        · split at h
          · rcases List.mem_append.mp h with h1 | h1
            · exact Or.inl h1
            · simp at h1
              exact Or.inr ⟨h5, by rw [h1]⟩
          · exact Or.inl h

theorem analyzeStep_mem_declining {acc : List TrendEntry × List StallEntry × List TrendEntry}
    {p : String × List TrendPt} {e : TrendEntry} (h : e ∈ (analyzeStep acc p).2.2) :
    e ∈ acc.2.2 ∨ (5 ≤ p.2.length ∧ e.exercise = p.1) := by
  unfold analyzeStep at h
  split at h
  · exact Or.inl h
  · split at h
    · exact Or.inl h
    · rename_i h4 hprev
      have h5 : 5 ≤ p.2.length := previousOf_length_ne_zero hprev
      split at h
      · exact Or.inl h
      · split at h
        · rcases List.mem_append.mp h with h1 | h1
          · exact Or.inl h1
          · simp at h1
            exact Or.inr ⟨h5, by rw [h1]⟩
        · split at h
          · exact Or.inl h
          · exact Or.inl h

theorem foldl_analyzeStep_improving (series : List (String × List TrendPt)) :
    ∀ acc, ∀ e ∈ (series.foldl analyzeStep acc).1,
      e ∈ acc.1 ∨ ∃ p ∈ series, 5 ≤ p.2.length ∧ e.exercise = p.1 := by
  induction series with
  | nil => intro acc e he; exact Or.inl he
  | cons p t ih =>
    intro acc e he
    simp only [List.foldl_cons] at he
    rcases ih (analyzeStep acc p) e he with h1 | ⟨q, hq, h2⟩
    · rcases analyzeStep_mem_improving h1 with h2 | h2
      · exact Or.inl h2
      · exact Or.inr ⟨p, List.mem_cons_self p t, h2⟩
    · exact Or.inr ⟨q, List.mem_cons_of_mem p hq, h2⟩

theorem foldl_analyzeStep_stalling (series : List (String × List TrendPt)) :
    ∀ acc, ∀ e ∈ (series.foldl analyzeStep acc).2.1,
      e ∈ acc.2.1 ∨ ∃ p ∈ series, 5 ≤ p.2.length ∧ e.exercise = p.1 := by
  induction series with
  | nil => intro acc e he; exact Or.inl he
  | cons p t ih =>
    intro acc e he
    simp only [List.foldl_cons] at he
    rcases ih (analyzeStep acc p) e he with h1 | ⟨q, hq, h2⟩
    · rcases analyzeStep_mem_stalling h1 with h2 | h2
      · exact Or.inl h2
      · exact Or.inr ⟨p, List.mem_cons_self p t, h2⟩
    · exact Or.inr ⟨q, List.mem_cons_of_mem p hq, h2⟩

theorem foldl_analyzeStep_declining (series : List (String × List TrendPt)) :
    ∀ acc, ∀ e ∈ (series.foldl analyzeStep acc).2.2,
      e ∈ acc.2.2 ∨ ∃ p ∈ series, 5 ≤ p.2.length ∧ e.exercise = p.1 := by
  induction series with
  | nil => intro acc e he; exact Or.inl he
  | cons p t ih =>
    intro acc e he
    simp only [List.foldl_cons] at he
    rcases ih (analyzeStep acc p) e he with h1 | ⟨q, hq, h2⟩
    · rcases analyzeStep_mem_declining h1 with h2 | h2
      · exact Or.inl h2
      · exact Or.inr ⟨p, List.mem_cons_self p t, h2⟩
    · exact Or.inr ⟨q, List.mem_cons_of_mem p hq, h2⟩

theorem trendAdd_keys (ex : String) (pt? : Option TrendPt) :
    ∀ m : List (String × List TrendPt),
      (trendAdd ex pt? m).map Prod.fst
        = if ex ∈ m.map Prod.fst then m.map Prod.fst
          else m.map Prod.fst ++ [ex] := by
  intro m
  induction m with
  | nil => simp [trendAdd]
  | cons q rest ih =>
    obtain ⟨k, pts⟩ := q
    unfold trendAdd
    split
    · rename_i hk
      simp [hk]
    · rename_i hk
      have hne : ex ≠ k := fun h => hk h.symm
      simp only [List.map_cons, List.mem_cons, ih]
      by_cases hm : ex ∈ rest.map Prod.fst <;> simp [hm, hne]

theorem trendAdd_nodup {ex : String} {pt? : Option TrendPt}
    {m : List (String × List TrendPt)} (h : (m.map Prod.fst).Nodup) :
    ((trendAdd ex pt? m).map Prod.fst).Nodup := by
  rw [trendAdd_keys]
  split
  · exact h
  · rename_i hm
    simp [List.nodup_append, h, hm]

theorem seriesStep_nodup {m : List (String × List TrendPt)} {s : Session}
    (h : (m.map Prod.fst).Nodup) : ((seriesStep m s).map Prod.fst).Nodup := by
  unfold seriesStep
  generalize s.exercises = items
  induction items generalizing m with
  | nil => exact h
  | cons p t ih => exact ih (trendAdd_nodup h)

theorem exerciseSeries_nodup (sessions : List Session) :
    ((exerciseSeries sessions).map Prod.fst).Nodup := by
  unfold exerciseSeries
  have : ∀ m : List Session, ∀ acc : List (String × List TrendPt),
      (acc.map Prod.fst).Nodup → ((m.foldl seriesStep acc).map Prod.fst).Nodup := by
    intro m
    induction m with
    | nil => intro acc h; exact h
    | cons s t ih => intro acc h; exact ih (seriesStep acc s) (seriesStep_nodup h)
  exact this sessions [] (by simp)

theorem assoc_nodup_val_eq {α β : Type} {l : List (α × β)}
    (h : (l.map Prod.fst).Nodup) {k : α} {b b' : β}
    (h1 : (k, b) ∈ l) (h2 : (k, b') ∈ l) : b = b' := by
  induction l with
  | nil => cases h1
  | cons q rest ih =>
    rw [List.map_cons, List.nodup_cons] at h
    rcases List.mem_cons.mp h1 with ha | ha <;> rcases List.mem_cons.mp h2 with hb | hb
    · exact congrArg Prod.snd (ha.trans hb.symm)
    · exfalso
      have hq1 : q.1 = k := by rw [← ha]
      exact h.1 (hq1 ▸ List.mem_map.mpr ⟨(k, b'), hb, rfl⟩)
    · exfalso
      have hq1 : q.1 = k := by rw [← hb]
      exact h.1 (hq1 ▸ List.mem_map.mpr ⟨(k, b), ha, rfl⟩)
    · exact ih h.2 ha hb

/-- C4 (corrected): analyzeTrainingTrends skips an exercise whose
(date, maxWeightInSession) series has fewer than 5 points — at least one
point must precede the most recent 4; with 5, 6 or 7 points it is
classified against the 1–3 available prior points, so the claim's
8-point minimum is too strong; only 4 or fewer points are skipped. -/
theorem C4_trends_skip_below_5_points (sessions : List Session) (ex : String)
    (d : List TrendPt) (hmem : (ex, d) ∈ exerciseSeries sessions)
    (hlen : d.length < 5) :
    (∀ e ∈ (analyzeTrainingTrends sessions).1, e.exercise ≠ ex) ∧
    (∀ e ∈ (analyzeTrainingTrends sessions).2.1, e.exercise ≠ ex) ∧
    (∀ e ∈ (analyzeTrainingTrends sessions).2.2, e.exercise ≠ ex) := by
  have hkey : ∀ d' : List TrendPt, (ex, d') ∈ exerciseSeries sessions → d' = d :=
    fun d' h' => assoc_nodup_val_eq (exerciseSeries_nodup sessions) h' hmem
  refine ⟨?_, ?_, ?_⟩
  · intro e he hne
    have h1 : e ∈ ((exerciseSeries sessions).foldl analyzeStep ([], [], [])).1 :=
      mem_sortCmp.mp (List.mem_of_mem_take he)
    rcases foldl_analyzeStep_improving _ _ e h1 with h2 | ⟨p, hp, h5, hex⟩
    · cases h2
    · rw [hne] at hex
      have hp' : (ex, p.2) ∈ exerciseSeries sessions := by rw [hex]; exact hp
      rw [hkey p.2 hp'] at h5
      omega
  · intro e he hne
    have h1 : e ∈ ((exerciseSeries sessions).foldl analyzeStep ([], [], [])).2.1 :=
      List.mem_of_mem_take he
    rcases foldl_analyzeStep_stalling _ _ e h1 with h2 | ⟨p, hp, h5, hex⟩
    · cases h2
    · rw [hne] at hex
      have hp' : (ex, p.2) ∈ exerciseSeries sessions := by rw [hex]; exact hp
      rw [hkey p.2 hp'] at h5
      omega
  · intro e he hne
    have h1 : e ∈ ((exerciseSeries sessions).foldl analyzeStep ([], [], [])).2.2 :=
      mem_sortCmp.mp (List.mem_of_mem_take he)
    rcases foldl_analyzeStep_declining _ _ e h1 with h2 | ⟨p, hp, h5, hex⟩
    · cases h2
    · rw [hne] at hex
      have hp' : (ex, p.2) ∈ exerciseSeries sessions := by rw [hex]; exact hp
      rw [hkey p.2 hp'] at h5
      omega

def c4Set (w : ℚ) : WSet :=
  { set_index := none, weight_lbs := some w, reps := some 5,
    distance_miles := none, duration_seconds := none, rpe := none,
    exercise_notes := "" }

def c4Session (st : String) (w : ℚ) : Session :=
  { id := "t|||" ++ st, title := "t", start_time := st, end_time := "",
    description := "", exercises := [("Sq", [c4Set w])] }

def c4Sessions : List Session :=
  [c4Session "2024-01-01" 100, c4Session "2024-01-02" 110,
   c4Session "2024-01-03" 110, c4Session "2024-01-04" 110,
   c4Session "2024-01-05" 110]

def c4Pts : List TrendPt :=
  [⟨"2024-01-01", 100⟩, ⟨"2024-01-02", 110⟩, ⟨"2024-01-03", 110⟩,
   ⟨"2024-01-04", 110⟩, ⟨"2024-01-05", 110⟩]

/-- C4 counterexample: an exercise with only 5 data points (fewer than the
8 the claim requires) is still classified — here "Sq" lands in improving
with change 10% because the code only skips when previous (slice(-8,-4))
is empty, i.e. when at most 4 points exist. -/
theorem C4_counterexample :
    (exerciseSeries c4Sessions).map (fun p => (p.1, p.2.length)) = [("Sq", 5)] ∧
    (analyzeTrainingTrends c4Sessions).1.map (fun e => e.exercise) = ["Sq"] := by
  have hser : exerciseSeries c4Sessions = [("Sq", c4Pts)] := by decide
  have hrec : recentOf c4Pts
      = [⟨"2024-01-02", 110⟩, ⟨"2024-01-03", 110⟩, ⟨"2024-01-04", 110⟩,
         ⟨"2024-01-05", 110⟩] := by decide
  have hprev : previousOf c4Pts = [⟨"2024-01-01", 100⟩] := by decide
  have hra : recentAvgOf c4Pts = 110 := by
    rw [recentAvgOf, hrec]
    norm_num
  have hpa : previousAvgOf c4Pts = 100 := by
    rw [previousAvgOf, hprev]
    norm_num
  have hcp : changePercentOf c4Pts = 10 := by
    rw [changePercentOf, hra, hpa]
    norm_num
  have hround : round1 (10 : ℚ) = 10 := by
    rw [round1, jsRound]
    norm_num
  have hstep : analyzeStep ([], [], []) ("Sq", c4Pts)
      = ([⟨"Sq", 10⟩], [], []) := by
    have h1 : ¬ (("Sq", c4Pts) : String × List TrendPt).2.length < 4 := by decide
    have h2 : ¬ (previousOf (("Sq", c4Pts) : String × List TrendPt).2).length = 0 := by
      show ¬ (previousOf c4Pts).length = 0
      rw [hprev]; decide
    have h3 : 2 < changePercentOf (("Sq", c4Pts) : String × List TrendPt).2 := by
      show 2 < changePercentOf c4Pts
      rw [hcp]; norm_num
    rw [analyzeStep, if_neg h1, if_neg h2, if_pos h3]
    have hr : round1 (changePercentOf (("Sq", c4Pts) : String × List TrendPt).2) = 10 := by
      show round1 (changePercentOf c4Pts) = 10
      rw [hcp, hround]
    rw [hr]
    rfl
  constructor
  · rw [hser]; rfl
  · rw [analyzeTrainingTrends, hser]
    simp only [List.foldl_cons, List.foldl_nil, hstep]
    rfl

def c4bSessions : List Session :=
  [c4Session "2024-01-01" 100, c4Session "2024-01-02" 101]

def c4bPts : List TrendPt := [⟨"2024-01-01", 100⟩, ⟨"2024-01-02", 101⟩]

theorem C4_trends_skip_below_5_points_witness :
    ("Sq", c4bPts) ∈ exerciseSeries c4bSessions ∧ c4bPts.length < 5 ∧
    ((∀ e ∈ (analyzeTrainingTrends c4bSessions).1, e.exercise ≠ "Sq") ∧
     (∀ e ∈ (analyzeTrainingTrends c4bSessions).2.1, e.exercise ≠ "Sq") ∧
     (∀ e ∈ (analyzeTrainingTrends c4bSessions).2.2, e.exercise ≠ "Sq")) :=
  ⟨by decide, by decide,
    C4_trends_skip_below_5_points c4bSessions "Sq" c4bPts (by decide) (by decide)⟩

/-- Training-age classification. The source takes a string and falls back
to intermediate for unknown values; the three meaningful values are
modelled as an enumeration. -/
inductive TrainingAge
  | novice
  | intermediate
  | advanced
deriving Repr, DecidableEq

structure GainRates where
  base : ℚ
  maxRate : ℚ
  variance : ℚ
deriving Repr, DecidableEq

/-- WEEKLY_GAIN_RATES of predictFuture1RM (base/max/variance per level). -/
def WEEKLY_GAIN_RATES : TrainingAge → GainRates
  | .novice => ⟨0.015, 0.025, 0.008⟩
  | .intermediate => ⟨0.006, 0.012, 0.004⟩
  | .advanced => ⟨0.002, 0.005, 0.002⟩

/-- CEILING_MULTIPLIERS of predictFuture1RM. -/
def CEILING_MULTIPLIERS : TrainingAge → ℚ
  | .novice => 2.0
  | .intermediate => 1.4
  | .advanced => 1.15

structure Prediction where
  week : ℚ
  predicted : ℚ
  lower : ℚ
  upper : ℚ
deriving Repr, DecidableEq

/-- startingValue resolution of predictFuture1RM: the explicit current1RM
when truthy, else the regression model's value at currentWeek
(model.a * ln(currentWeek) + model.b). -/
def startingValueOf (model : Option RegressionModel) (currentWeek : ℚ)
    (current1RM : Option ℚ) : ℚ :=
  match current1RM, model with
  | some v, some m => if v = 0 then m.a * ratLog currentWeek + m.b else v
  | some v, none => v
  | none, some m => m.a * ratLog currentWeek + m.b
  | none, none => 0

/-- Momentum multiplier derived from the regression model. -/
def momentumOf : Option RegressionModel → ℚ
  | none => 1
  | some m =>
    if 0 < m.a ∧ 0.5 < m.rSquared then 1.2
    else if 0 < m.a then 1
    else if m.rSquared < 0.3 then 0.8
    else 0.5

/-- One week of the forecast loop: clamp progress-to-ceiling into [0, 1],
diminish the gain as the ceiling approaches (1 - sqrt(progress)), apply the
never-negative weekly gain, and clamp at the ceiling. -/
def predictStep (rates : GainRates) (momentum starting ceiling cur : ℚ) : ℚ :=
  let progressToCeiling := max 0 (min 1 ((cur - starting) / (ceiling - starting)))
  let diminishingFactor := 1 - ratSqrt progressToCeiling
  let weeklyGainRate := rates.base * momentum * diminishingFactor
  let gain := cur * max 0 weeklyGainRate
  min (cur + gain) ceiling

/-- The prediction record pushed for week i: confidence band grows linearly
with i; the lower bound is clamped at startingValue, the upper at the
ceiling; all three reported values rounded to one decimal. -/
def predictEntry (rates : GainRates) (starting ceiling currentWeek cur' : ℚ)
    (i : ℕ) : Prediction :=
  { week := currentWeek + i,
    predicted := round1 cur',
    lower := round1 (max starting (cur' - rates.variance * cur' * i)),
    upper := round1 (min ceiling (cur' + rates.variance * cur' * i * 1.5)) }

/-- The for-loop of predictFuture1RM, carrying the running prediction. -/
def predictLoop (rates : GainRates) (momentum starting ceiling currentWeek : ℚ) :
    ℚ → ℕ → ℕ → List Prediction
  | _, _, 0 => []
  | cur, i, Nat.succ n =>
    predictEntry rates starting ceiling currentWeek
        (predictStep rates momentum starting ceiling cur) i
      :: predictLoop rates momentum starting ceiling currentWeek
        (predictStep rates momentum starting ceiling cur) (i + 1) n

/-- public/danfo-analytics.js predictFuture1RM. -/
def predictFuture1RM (model : Option RegressionModel) (currentWeek : ℚ)
    (weeksAhead : ℕ) (trainingAge : TrainingAge) (current1RM : Option ℚ) :
    List Prediction :=
  if model = none ∧ (current1RM = none ∨ current1RM = some 0) then []
  else if startingValueOf model currentWeek current1RM ≤ 0 then []
  else
    predictLoop (WEEKLY_GAIN_RATES trainingAge) (momentumOf model)
      (startingValueOf model currentWeek current1RM)
      (startingValueOf model currentWeek current1RM * CEILING_MULTIPLIERS trainingAge)
      currentWeek
      (startingValueOf model currentWeek current1RM) 1 weeksAhead

theorem predictStep_bounds (rates : GainRates) (momentum starting ceiling cur : ℚ)
    (hs : 0 < starting) (h1 : starting ≤ cur) (h2 : cur ≤ ceiling) :
    cur ≤ predictStep rates momentum starting ceiling cur ∧
    predictStep rates momentum starting ceiling cur ≤ ceiling := by
  unfold predictStep
  refine ⟨le_min ?_ h2, min_le_right _ _⟩
  have hcur : 0 < cur := lt_of_lt_of_le hs h1
  have hmax : (0 : ℚ) ≤ max 0 (rates.base * momentum *
      (1 - ratSqrt (max 0 (min 1 ((cur - starting) / (ceiling - starting)))))) :=
    le_max_left 0 _
  nlinarith [mul_nonneg (le_of_lt hcur) hmax]

theorem predictLoop_spec (rates : GainRates) (momentum starting ceiling currentWeek : ℚ)
    (hvar : 0 ≤ rates.variance) (hs : 0 < starting) (hc : starting < ceiling) :
    ∀ (n i : ℕ) (cur : ℚ), starting ≤ cur → cur ≤ ceiling →
      (∀ p ∈ predictLoop rates momentum starting ceiling currentWeek cur i n,
          p.lower ≤ p.predicted ∧ p.predicted ≤ p.upper ∧
          round1 starting ≤ p.predicted ∧ p.predicted ≤ round1 ceiling) ∧
      ((predictLoop rates momentum starting ceiling currentWeek cur i n).map
          (fun p => p.predicted)).Chain' (fun a b => a ≤ b) ∧
      (∀ q ∈ ((predictLoop rates momentum starting ceiling currentWeek cur i n).map
          (fun p => p.predicted)).head?, round1 cur ≤ q) := by
  intro n
  induction n with
  | zero =>
    intro i cur _ _
    refine ⟨?_, ?_, ?_⟩ <;> simp [predictLoop]
  | succ n ih =>
    intro i cur h1 h2
    obtain ⟨hstep1, hstep2⟩ := predictStep_bounds rates momentum starting ceiling cur hs h1 h2
    have h1' : starting ≤ predictStep rates momentum starting ceiling cur :=
      le_trans h1 hstep1
    obtain ⟨ih1, ih2, ih3⟩ := ih (i + 1) (predictStep rates momentum starting ceiling cur)
      h1' hstep2
    have hcurpos : (0 : ℚ) < predictStep rates momentum starting ceiling cur :=
      lt_of_lt_of_le hs h1'
    have hvpos : (0 : ℚ) ≤ rates.variance * predictStep rates momentum starting ceiling cur
        * (i : ℚ) := by positivity
    simp only [predictLoop]
    refine ⟨?_, ?_, ?_⟩
    · intro p hp
      rcases List.mem_cons.mp hp with hph | hpt
      · subst hph
        unfold predictEntry
        refine ⟨?_, ?_, ?_, ?_⟩
        · exact round1_mono (max_le h1'
            (sub_le_self _ hvpos))
        · refine round1_mono (le_min hstep2 ?_)
          nlinarith
        · exact round1_mono h1'
        · exact round1_mono hstep2
      · exact ih1 p hpt
    · simp only [List.map_cons]
      refine List.chain'_cons'.mpr ⟨?_, ih2⟩
      intro q hq
      exact ih3 q hq
    · intro q hq
      simp only [List.map_cons, List.head?_cons, Option.mem_def, Option.some_inj] at hq
      rw [← hq]
      exact round1_mono hstep1

/-- C1 (corrected): every prediction sequence of predictFuture1RM is
monotonically non-decreasing with lower ≤ predicted ≤ upper; the reported
predicted values, being rounded to one decimal, lie within 1/20 of the
interval [startingValue, ceiling] (the internal pre-rounding values lie in
the interval itself, but the rounding can undershoot startingValue or
overshoot the ceiling by up to 0.05, as C1_counterexample shows). -/
theorem C1_predictFuture1RM_bounds (model : Option RegressionModel)
    (currentWeek : ℚ) (weeksAhead : ℕ) (ta : TrainingAge) (current1RM : Option ℚ) :
    ((predictFuture1RM model currentWeek weeksAhead ta current1RM).map
        (fun p => p.predicted)).Chain' (fun a b => a ≤ b) ∧
    ∀ p ∈ predictFuture1RM model currentWeek weeksAhead ta current1RM,
      p.lower ≤ p.predicted ∧ p.predicted ≤ p.upper ∧
      startingValueOf model currentWeek current1RM - 1/20 < p.predicted ∧
      p.predicted ≤ startingValueOf model currentWeek current1RM
        * CEILING_MULTIPLIERS ta + 1/20 := by
  unfold predictFuture1RM
  split
  · simp
  · split
    · simp
    · rename_i hguard hpos
      push_neg at hpos
      have hmult : 1 < CEILING_MULTIPLIERS ta := by
        cases ta <;> norm_num [CEILING_MULTIPLIERS]
      have hceil : startingValueOf model currentWeek current1RM
          < startingValueOf model currentWeek current1RM * CEILING_MULTIPLIERS ta := by
        nlinarith
      have hvar : 0 ≤ (WEEKLY_GAIN_RATES ta).variance := by
        cases ta <;> norm_num [WEEKLY_GAIN_RATES]
      obtain ⟨h1, h2, _⟩ := predictLoop_spec (WEEKLY_GAIN_RATES ta) (momentumOf model)
        (startingValueOf model currentWeek current1RM)
        (startingValueOf model currentWeek current1RM * CEILING_MULTIPLIERS ta)
        currentWeek hvar hpos hceil weeksAhead 1
        (startingValueOf model currentWeek current1RM) le_rfl (le_of_lt hceil)
      refine ⟨h2, ?_⟩
      intro p hp
      obtain ⟨ha, hb, hc', hd⟩ := h1 p hp
      have hr1 := round1_bounds (startingValueOf model currentWeek current1RM)
      have hr2 := round1_bounds (startingValueOf model currentWeek current1RM
        * CEILING_MULTIPLIERS ta)
      exact ⟨ha, hb, by linarith, by linarith⟩

theorem C1_predictFuture1RM_bounds_witness :
    ((predictFuture1RM none 1 2 TrainingAge.novice (some 100)).map
        (fun p => p.predicted)).Chain' (fun a b => a ≤ b) ∧
    ∀ p ∈ predictFuture1RM none 1 2 TrainingAge.novice (some 100),
      p.lower ≤ p.predicted ∧ p.predicted ≤ p.upper ∧
      startingValueOf none 1 (some 100) - 1/20 < p.predicted ∧
      p.predicted ≤ startingValueOf none 1 (some 100)
        * CEILING_MULTIPLIERS TrainingAge.novice + 1/20 :=
  C1_predictFuture1RM_bounds none 1 2 TrainingAge.novice (some 100)

/-- C1 counterexample: with an explicit current 1RM of 1.04 (26/25), an
advanced lifter and one week ahead, the unrounded prediction is
1.04208, but Math.round(x*10)/10 reports 1.0 — strictly below the starting
value 1.04, refuting the claim that every predicted value is at least the
starting value. -/
theorem C1_counterexample :
    (1 : ℚ) < 26/25 ∧
    startingValueOf none 1 (some (26/25)) = 26/25 ∧
    predictFuture1RM none 1 1 TrainingAge.advanced (some (26/25))
      = [{ week := 2, predicted := 1, lower := 1, upper := 1 }] := by
  have hsv : startingValueOf none 1 (some (26/25)) = 26/25 := rfl
  refine ⟨by norm_num, hsv, ?_⟩
  have hstep : predictStep (WEEKLY_GAIN_RATES TrainingAge.advanced) (momentumOf none)
      (26/25) ((26/25) * CEILING_MULTIPLIERS TrainingAge.advanced) (26/25)
      = 6513/6250 := by
    norm_num [predictStep, ratSqrt_zero, WEEKLY_GAIN_RATES, momentumOf,
      CEILING_MULTIPLIERS, max_def, min_def, sup_eq_max, inf_eq_min]
  rw [predictFuture1RM]
  have hg1 : ¬((none : Option RegressionModel) = none ∧
      ((some (26/25 : ℚ)) = none ∨ (some (26/25 : ℚ)) = some 0)) := by
    rintro ⟨-, h | h⟩
    · exact Option.noConfusion h
    · rw [Option.some_inj] at h
      norm_num at h
  rw [if_neg hg1]
  rw [if_neg (by rw [hsv]; norm_num)]
  rw [show predictLoop (WEEKLY_GAIN_RATES TrainingAge.advanced) (momentumOf none)
      (startingValueOf none 1 (some (26/25)))
      (startingValueOf none 1 (some (26/25)) * CEILING_MULTIPLIERS TrainingAge.advanced)
      1 (startingValueOf none 1 (some (26/25))) 1 1
    = [predictEntry (WEEKLY_GAIN_RATES TrainingAge.advanced)
        (26/25) ((26/25) * CEILING_MULTIPLIERS TrainingAge.advanced) 1 (6513/6250) 1]
    from by rw [hsv] at *; simp only [predictLoop, hstep]]
  rw [predictEntry]
  refine congrArg (fun x => [x]) ?_
  have hpred : round1 (6513/6250 : ℚ) = 1 := by
    rw [round1, jsRound]
    norm_num
  have hlow : round1 (max (26/25 : ℚ)
      (6513/6250 - (WEEKLY_GAIN_RATES TrainingAge.advanced).variance * (6513/6250) * (1 : ℕ)))
      = 1 := by
    rw [show max (26/25 : ℚ)
        (6513/6250 - (WEEKLY_GAIN_RATES TrainingAge.advanced).variance * (6513/6250) * (1 : ℕ))
      = 26/25 by norm_num [WEEKLY_GAIN_RATES, max_def]]
    rw [round1, jsRound]
    norm_num
  have hup : round1 (min ((26/25 : ℚ) * CEILING_MULTIPLIERS TrainingAge.advanced)
      (6513/6250 + (WEEKLY_GAIN_RATES TrainingAge.advanced).variance * (6513/6250) * (1 : ℕ) * 1.5))
      = 1 := by
    rw [show min ((26/25 : ℚ) * CEILING_MULTIPLIERS TrainingAge.advanced)
        (6513/6250 + (WEEKLY_GAIN_RATES TrainingAge.advanced).variance * (6513/6250) * (1 : ℕ) * 1.5)
      = 6532539/6250000 by norm_num [WEEKLY_GAIN_RATES, CEILING_MULTIPLIERS, min_def]]
    rw [round1, jsRound]
    norm_num
  rw [hpred, hlow, hup]
  norm_num

/-- A personal-record entry of getPersonalRecords. -/
structure PRec where
  exercise : String
  weight : ℚ
  reps : ℚ
  estimated1RM : ℚ
  date : String
deriving Repr, DecidableEq

/-- danfo-analytics calculate1RM: despite its Epley doc comment it returns
the weight itself for reps ≤ 0 and — explicitly, "1 rep = true 1RM" — for
reps = 1; Epley weight * (1 + reps/30) only applies from 2 reps up. -/
def calculate1RM (weight reps : ℚ) : ℚ :=
  if reps ≤ 0 then weight
  else if reps = 1 then weight
  else weight * (1 + reps / 30)

/-- reps defaulting of getPersonalRecords:
typeof set.reps === 'number' && set.reps > 0 ? set.reps : 1. -/
def defaultReps : Option ℚ → ℚ
  | some r => if 0 < r then r else 1
  | none => 1

/-- Map.set: replace the existing entry in place, append when absent. -/
def setAssoc (k : String) (v : PRec) :
    List (String × PRec) → List (String × PRec)
  | [] => [(k, v)]
  | (k', v') :: rest =>
    if k' = k then (k', v) :: rest else (k', v') :: setAssoc k v rest

/-- One set of the PR loop: skip non-numeric or non-positive weights,
default the reps, compute the estimate, and replace the incumbent when the
new (unrounded) estimate strictly exceeds the stored (rounded) one. -/
def prStep (date ex : String) (prs : List (String × PRec)) (st : WSet) :
    List (String × PRec) :=
  match st.weight_lbs with
  | none => prs
  | some w =>
    if w ≤ 0 then prs
    else
      match assocFind ex prs with
      | none =>
        setAssoc ex
          ⟨ex, w, defaultReps st.reps,
            round1 (calculate1RM w (defaultReps st.reps)), date⟩ prs
      | some cur =>
        if cur.estimated1RM < calculate1RM w (defaultReps st.reps) then
          setAssoc ex
            ⟨ex, w, defaultReps st.reps,
              round1 (calculate1RM w (defaultReps st.reps)), date⟩ prs
        else prs

def prSession (prs : List (String × PRec)) (s : Session) :
    List (String × PRec) :=
  s.exercises.foldl (fun p q => q.2.foldl (prStep s.start_time q.1) p) prs

/-- public/danfo-analytics.js getPersonalRecords: best estimated-1RM set
per exercise, then drop PRs with weight ≤ 50, sort by estimated 1RM
descending, cap at 10. -/
def getPersonalRecords (sessions : List Session) : List PRec :=
  (sortCmp (fun a b => b.estimated1RM - a.estimated1RM)
    (((sessions.foldl prSession []).map Prod.snd).filter
      (fun pr => 50 < pr.weight))).take 10

/-- The estimate a set contributes as a PR candidate (none when its weight
is missing or non-positive). -/
def setCandidate (st : WSet) : Option ℚ :=
  match st.weight_lbs with
  | none => none
  | some w => if w ≤ 0 then none else some (calculate1RM w (defaultReps st.reps))

/-- All PR-candidate estimates of one exercise, in traversal order. -/
def prCandidates (sessions : List Session) (ex : String) : List ℚ :=
  sessions.flatMap (fun s => s.exercises.flatMap (fun q =>
    if q.1 = ex then q.2.filterMap setCandidate else []))

/-- The retention invariant getPersonalRecords maintains per exercise: the
stored entry is the rounding of some actual candidate, and no candidate
exceeds the stored (rounded) estimate by more than the 0.05 the rounding
can lose. -/
def prInv (ex : String) (cands : List ℚ) : Option PRec → Prop
  | none => cands = []
  | some pr => pr.exercise = ex ∧ (∃ e ∈ cands, pr.estimated1RM = round1 e) ∧
      ∀ e ∈ cands, e ≤ pr.estimated1RM + 1/20

theorem assocFind_setAssoc (k k' : String) (v : PRec) :
    ∀ l : List (String × PRec),
      assocFind k' (setAssoc k v l) = if k' = k then some v else assocFind k' l := by
  intro l
  induction l with
  | nil =>
    by_cases h : k' = k
    · subst h
      simp [setAssoc, assocFind]
    · have h2 : ¬ k = k' := fun hh => h hh.symm
      simp [setAssoc, assocFind, h, h2]
  | cons q rest ih =>
    obtain ⟨k0, v0⟩ := q
    by_cases h0 : k0 = k
    · subst h0
      by_cases h1 : k' = k0
      · subst h1
        simp [setAssoc, assocFind]
      · have h2 : ¬ k0 = k' := fun hh => h1 hh.symm
        simp [setAssoc, assocFind, h1, h2]
    · by_cases h1 : k0 = k'
      · have h3 : ¬ k' = k := fun hh => h0 (h1.trans hh)
        simp [setAssoc, assocFind, h0, h1, h3]
      · simp [setAssoc, assocFind, h0, h1, ih]

theorem round1_ge_of_gt {x : ℚ} {m : ℤ} (h : (m : ℚ) / 10 < x) :
    (m : ℚ) / 10 ≤ round1 x := by
  unfold round1 jsRound
  have h1 : (m : ℚ) ≤ x * 10 + 1/2 := by nlinarith
  have h2 : m ≤ ⌊x * 10 + 1/2⌋ := Int.le_floor.mpr h1
  have h3 : (m : ℚ) ≤ (⌊x * 10 + 1/2⌋ : ℚ) := by exact_mod_cast h2
  linarith

theorem round1_shape (x : ℚ) : ∃ m : ℤ, round1 x = (m : ℚ) / 10 :=
  ⟨jsRound (x * 10), rfl⟩

theorem prStep_inv (date ex : String) (st : WSet) (EX : String)
    {prs : List (String × PRec)} {c : List ℚ}
    (h : prInv EX c (assocFind EX prs)) :
    prInv EX (c ++ (if ex = EX then (setCandidate st).toList else []))
      (assocFind EX (prStep date ex prs st)) := by
  cases hw : st.weight_lbs with
  | none =>
    simp only [prStep, hw, setCandidate]
    simpa using h
  | some w =>
    by_cases hwp : w ≤ 0
    · simp only [prStep, hw, if_pos hwp, setCandidate, Option.toList]
      simpa [hwp] using h
    · have hsc : setCandidate st = some (calculate1RM w (defaultReps st.reps)) := by
        simp [setCandidate, hw, hwp]
      by_cases hex : ex = EX
      · subst hex
        rw [hsc]
        cases hfind : assocFind ex prs with
        | none =>
          have hc : c = [] := by simpa [prInv, hfind] using h
          subst hc
          simp only [prStep, hw, if_neg hwp, hfind, assocFind_setAssoc, if_pos rfl]
          refine ⟨rfl, ⟨calculate1RM w (defaultReps st.reps), by simp, rfl⟩, ?_⟩
          intro e he
          simp at he
          subst he
          have := (round1_bounds (calculate1RM w (defaultReps st.reps))).1
          show _ ≤ round1 (calculate1RM w (defaultReps st.reps)) + 1/20
          linarith
        | some cur =>
          rw [hfind] at h
          obtain ⟨hexr, ⟨e0, he0, hrnd⟩, hbnd⟩ := h
          simp only [prStep, hw, if_neg hwp, hfind]
          by_cases hlt : cur.estimated1RM < calculate1RM w (defaultReps st.reps)
          · rw [if_pos hlt, assocFind_setAssoc, if_pos rfl]
            refine ⟨rfl, ⟨calculate1RM w (defaultReps st.reps), by simp, rfl⟩, ?_⟩
            intro e he
            rcases List.mem_append.mp he with h1 | h1
            · have h2 := hbnd e h1
              have h3 : cur.estimated1RM
                  ≤ round1 (calculate1RM w (defaultReps st.reps)) := by
                rw [hrnd]
                rw [hrnd] at hlt
                exact round1_ge_of_gt (show ((jsRound (e0 * 10) : ℚ)) / 10 < _ from hlt)
              show e ≤ round1 (calculate1RM w (defaultReps st.reps)) + 1/20
              linarith
            · simp at h1
              subst h1
              have := (round1_bounds (calculate1RM w (defaultReps st.reps))).1
              show _ ≤ round1 (calculate1RM w (defaultReps st.reps)) + 1/20
              linarith
          · push_neg at hlt
            rw [if_neg (not_lt.mpr hlt), hfind]
            refine ⟨hexr, ⟨e0, List.mem_append_left _ he0, hrnd⟩, ?_⟩
            intro e he
            rcases List.mem_append.mp he with h1 | h1
            · exact hbnd e h1
            · simp at h1
              subst h1
              linarith
      · rw [if_neg hex]
        have hkeep : assocFind EX (prStep date ex prs st) = assocFind EX prs := by
          cases hfind : assocFind ex prs with
          | none =>
            simp only [prStep, hw, if_neg hwp, hfind]
            rw [assocFind_setAssoc, if_neg (fun hh : EX = ex => hex hh.symm)]
          | some cur =>
            simp only [prStep, hw, if_neg hwp, hfind]
            by_cases hlt : cur.estimated1RM < calculate1RM w (defaultReps st.reps)
            · rw [if_pos hlt, assocFind_setAssoc,
                if_neg (fun hh : EX = ex => hex hh.symm)]
            · rw [if_neg hlt]
        rw [hkeep]
        simpa using h

theorem prSets_inv (date ex EX : String) :
    ∀ (sets : List WSet) (prs : List (String × PRec)) (c : List ℚ),
      prInv EX c (assocFind EX prs) →
      prInv EX (c ++ (if ex = EX then sets.filterMap setCandidate else []))
        (assocFind EX (sets.foldl (prStep date ex) prs)) := by
  intro sets
  induction sets with
  | nil =>
    intro prs c h
    simpa using h
  | cons st t ih =>
    intro prs c h
    have h2 := ih (prStep date ex prs st)
      (c ++ (if ex = EX then (setCandidate st).toList else []))
      (prStep_inv date ex st EX h)
    have heq : (c ++ (if ex = EX then (setCandidate st).toList else []))
          ++ (if ex = EX then t.filterMap setCandidate else [])
        = c ++ (if ex = EX then (st :: t).filterMap setCandidate else []) := by
      by_cases hex : ex = EX
      · cases hsc : setCandidate st <;>
          simp [hex, List.filterMap_cons, hsc]
      · simp [hex]
    rw [List.foldl_cons]
    rw [← heq]
    exact h2

theorem prExs_inv (date EX : String) :
    ∀ (exs : List (String × List WSet)) (prs : List (String × PRec)) (c : List ℚ),
      prInv EX c (assocFind EX prs) →
      prInv EX (c ++ exs.flatMap (fun q =>
          if q.1 = EX then q.2.filterMap setCandidate else []))
        (assocFind EX (exs.foldl (fun p q => q.2.foldl (prStep date q.1) p) prs)) := by
  intro exs
  induction exs with
  | nil =>
    intro prs c h
    simpa using h
  | cons q t ih =>
    intro prs c h
    have h1 := prSets_inv date q.1 EX q.2 prs c h
    have h2 := ih (q.2.foldl (prStep date q.1) prs)
      (c ++ (if q.1 = EX then q.2.filterMap setCandidate else [])) h1
    rw [List.foldl_cons, List.flatMap_cons, ← List.append_assoc]
    exact h2

theorem prSessions_inv (EX : String) :
    ∀ (sessions : List Session) (prs : List (String × PRec)) (c : List ℚ),
      prInv EX c (assocFind EX prs) →
      prInv EX (c ++ sessions.flatMap (fun s => s.exercises.flatMap (fun q =>
          if q.1 = EX then q.2.filterMap setCandidate else [])))
        (assocFind EX (sessions.foldl prSession prs)) := by
  intro sessions
  induction sessions with
  | nil =>
    intro prs c h
    simpa using h
  | cons s t ih =>
    intro prs c h
    have h1 := prExs_inv s.start_time EX s.exercises prs c h
    have h2 := ih (prSession prs s)
      (c ++ s.exercises.flatMap (fun q =>
        if q.1 = EX then q.2.filterMap setCandidate else [])) h1
    rw [List.foldl_cons, List.flatMap_cons, ← List.append_assoc]
    exact h2

theorem prCandidates_inv (sessions : List Session) (EX : String) :
    prInv EX (prCandidates sessions EX)
      (assocFind EX (sessions.foldl prSession [])) := by
  have h0 : prInv EX [] (assocFind EX ([] : List (String × PRec))) := by
    simp [assocFind, prInv]
  have := prSessions_inv EX sessions [] [] h0
  simpa [prCandidates] using this

theorem setAssoc_keys (k : String) (v : PRec) :
    ∀ l : List (String × PRec),
      (setAssoc k v l).map Prod.fst
        = if k ∈ l.map Prod.fst then l.map Prod.fst
          else l.map Prod.fst ++ [k] := by
  intro l
  induction l with
  | nil => simp [setAssoc]
  | cons q rest ih =>
    obtain ⟨k0, v0⟩ := q
    unfold setAssoc
    split
    · rename_i h0
      simp [h0]
    · rename_i h0
      have hne : k ≠ k0 := fun h => h0 h.symm
      simp only [List.map_cons, List.mem_cons, ih]
      by_cases hm : k ∈ rest.map Prod.fst <;> simp [hm, hne]

theorem prStep_keys_nodup (date ex : String) (st : WSet)
    {prs : List (String × PRec)} (h : (prs.map Prod.fst).Nodup) :
    ((prStep date ex prs st).map Prod.fst).Nodup := by
  have hset : ∀ v : PRec, ((setAssoc ex v prs).map Prod.fst).Nodup := by
    intro v
    rw [setAssoc_keys]
    split
    · exact h
    · rename_i hm
      simp [List.nodup_append, h, hm]
  cases hw : st.weight_lbs with
  | none => simpa [prStep, hw] using h
  | some w =>
    by_cases hwp : w ≤ 0
    · simpa [prStep, hw, hwp] using h
    · cases hfind : assocFind ex prs with
      | none => simpa [prStep, hw, hwp, hfind] using hset _
      | some cur =>
        by_cases hlt : cur.estimated1RM < calculate1RM w (defaultReps st.reps)
        · simpa [prStep, hw, hwp, hfind, hlt] using hset _
        · simpa [prStep, hw, hwp, hfind, hlt] using h

theorem prFold_keys_nodup (sessions : List Session) :
    (((sessions.foldl prSession []).map Prod.fst)).Nodup := by
  have hsets : ∀ (date ex : String) (sets : List WSet)
      (prs : List (String × PRec)), (prs.map Prod.fst).Nodup →
      ((sets.foldl (prStep date ex) prs).map Prod.fst).Nodup := by
    intro date ex sets
    induction sets with
    | nil => intro prs h; exact h
    | cons st t ih => intro prs h; exact ih _ (prStep_keys_nodup date ex st h)
  have hexs : ∀ (date : String) (exs : List (String × List WSet))
      (prs : List (String × PRec)), (prs.map Prod.fst).Nodup →
      ((exs.foldl (fun p q => q.2.foldl (prStep date q.1) p) prs).map Prod.fst).Nodup := by
    intro date exs
    induction exs with
    | nil => intro prs h; exact h
    | cons q t ih => intro prs h; exact ih _ (hsets date q.1 q.2 prs h)
  have hmain : ∀ (ss : List Session) (prs : List (String × PRec)),
      (prs.map Prod.fst).Nodup →
      ((ss.foldl prSession prs).map Prod.fst).Nodup := by
    intro ss
    induction ss with
    | nil => intro prs h; exact h
    | cons s t ih => intro prs h; exact ih _ (hexs s.start_time s.exercises prs h)
  exact hmain sessions [] (by simp)

theorem assocFind_of_mem_nodup :
    ∀ {l : List (String × PRec)}, (l.map Prod.fst).Nodup →
      ∀ {k : String} {pr : PRec}, (k, pr) ∈ l → assocFind k l = some pr := by
  intro l
  induction l with
  | nil => intro _ k pr h; cases h
  | cons q rest ih =>
    obtain ⟨k0, v0⟩ := q
    intro hnd k pr hmem
    rw [List.map_cons, List.nodup_cons] at hnd
    rcases List.mem_cons.mp hmem with h1 | h1
    · obtain ⟨hk, hv⟩ := Prod.mk.injEq .. ▸ h1
      simp [assocFind, hk.symm, hv.symm]
    · have hkne : ¬ k0 = k := by
        intro hk
        subst hk
        exact hnd.1 (List.mem_map.mpr ⟨(k0, pr), h1, rfl⟩)
      simp only [assocFind, if_neg hkne]
      exact ih hnd.2 h1

/-- C5 (corrected): getPersonalRecords estimates a set's 1RM with Epley
weight * (1 + reps/30) only for reps ≥ 2; for reps ≤ 1 (including the
defaulted reps = 1 of absent/invalid reps) the estimate is the weight
itself. Retention compares the new unrounded estimate against the stored
rounded one, so the retained entry is the rounding of an actual candidate
estimate and no candidate exceeds it by more than 0.05 (rather than being
exactly the maximum of weight * (1 + reps/30)). -/
theorem C5_getPersonalRecords_retention (sessions : List Session) (pr : PRec)
    (hpr : pr ∈ getPersonalRecords sessions) :
    50 < pr.weight ∧
    (∃ e ∈ prCandidates sessions pr.exercise, pr.estimated1RM = round1 e) ∧
    (∀ e ∈ prCandidates sessions pr.exercise, e ≤ pr.estimated1RM + 1/20) := by
  have h1 : pr ∈ ((sessions.foldl prSession []).map Prod.snd).filter
      (fun x => 50 < x.weight) :=
    mem_sortCmp.mp (List.mem_of_mem_take hpr)
  have hw : 50 < pr.weight := by
    have := List.of_mem_filter h1
    simpa using this
  have h3 : pr ∈ (sessions.foldl prSession []).map Prod.snd :=
    List.mem_of_mem_filter h1
  obtain ⟨⟨k, pr'⟩, hmem, hsnd⟩ := List.mem_map.mp h3
  have hpr' : pr' = pr := hsnd
  subst hpr'
  have hfind : assocFind k (sessions.foldl prSession []) = some pr' :=
    assocFind_of_mem_nodup (prFold_keys_nodup sessions) hmem
  have hinv := prCandidates_inv sessions k
  rw [hfind] at hinv
  obtain ⟨hexk, hex2, hbnd⟩ := hinv
  rw [show pr'.exercise = k from hexk]
  exact ⟨hw, hex2, hbnd⟩

/-- A weighted set with reps, for concrete PR inputs. -/
def prSet (w r : ℚ) : WSet :=
  { set_index := none, weight_lbs := some w, reps := some r,
    distance_miles := none, duration_seconds := none, rpe := none,
    exercise_notes := "" }

def c5Session : Session :=
  { id := "t|||2024-01-01", title := "t", start_time := "2024-01-01",
    end_time := "", description := "",
    exercises := [("Bench", [prSet 100 1, prSet 95 2])] }

/-- C5 counterexample: for sets 100×1 and 95×2, the Epley formula
weight * (1 + reps/30) prefers 100×1 (103.33 vs 101.33), but the code's
calculate1RM returns the plain weight for a single rep (100), so the code
retains 95×2 — the claim's "highest Epley estimate" rule picks the wrong
set. -/
theorem C5_counterexample :
    epley_formula 95 2 < epley_formula 100 1 ∧
    (getPersonalRecords [c5Session]).map (fun pr => (pr.weight, pr.reps))
      = [((95 : ℚ), (2 : ℚ))] := by
  constructor
  · norm_num [epley_formula]
  · have hr1 : round1 (100 : ℚ) = 100 := by
      rw [round1, jsRound]; norm_num
    have hr2 : round1 (304/3 : ℚ) = 1013/10 := by
      rw [round1, jsRound]; norm_num
    have hp1 : prStep "2024-01-01" "Bench" [] (prSet 100 1)
        = [("Bench", ⟨"Bench", 100, 1, 100, "2024-01-01"⟩)] := by
      norm_num [prStep, prSet, assocFind, setAssoc, defaultReps, calculate1RM, hr1]
    have hp2 : prStep "2024-01-01" "Bench"
        [("Bench", ⟨"Bench", 100, 1, 100, "2024-01-01"⟩)] (prSet 95 2)
        = [("Bench", ⟨"Bench", 95, 2, 1013/10, "2024-01-01"⟩)] := by
      norm_num [prStep, prSet, assocFind, setAssoc, defaultReps, calculate1RM, hr2]
    norm_num [getPersonalRecords, prSession, c5Session, hp1, hp2, sortCmp, insertCmp]

def c5wSession : Session :=
  { id := "t|||2024-01-01", title := "t", start_time := "2024-01-01",
    end_time := "", description := "",
    exercises := [("Bench", [prSet 135 10, prSet 155 8, prSet 175 5])] }

def c5wPr : PRec := ⟨"Bench", 175, 5, 1021/5, "2024-01-01"⟩

theorem C5_getPersonalRecords_retention_witness :
    c5wPr ∈ getPersonalRecords [c5wSession] ∧
    (50 < c5wPr.weight ∧
     (∃ e ∈ prCandidates [c5wSession] c5wPr.exercise, c5wPr.estimated1RM = round1 e) ∧
     (∀ e ∈ prCandidates [c5wSession] c5wPr.exercise,
        e ≤ c5wPr.estimated1RM + 1/20)) := by
  have hr1 : round1 (180 : ℚ) = 180 := by
    rw [round1, jsRound]; norm_num
  have hr2 : round1 (589/3 : ℚ) = 1963/10 := by
    rw [round1, jsRound]; norm_num
  have hr3 : round1 (1225/6 : ℚ) = 1021/5 := by
    rw [round1, jsRound]; norm_num
  have hp1 : prStep "2024-01-01" "Bench" [] (prSet 135 10)
      = [("Bench", ⟨"Bench", 135, 10, 180, "2024-01-01"⟩)] := by
    norm_num [prStep, prSet, assocFind, setAssoc, defaultReps, calculate1RM, hr1]
  have hp2 : prStep "2024-01-01" "Bench"
      [("Bench", ⟨"Bench", 135, 10, 180, "2024-01-01"⟩)] (prSet 155 8)
      = [("Bench", ⟨"Bench", 155, 8, 1963/10, "2024-01-01"⟩)] := by
    norm_num [prStep, prSet, assocFind, setAssoc, defaultReps, calculate1RM, hr2]
  have hp3 : prStep "2024-01-01" "Bench"
      [("Bench", ⟨"Bench", 155, 8, 1963/10, "2024-01-01"⟩)] (prSet 175 5)
      = [("Bench", c5wPr)] := by
    norm_num [prStep, prSet, assocFind, setAssoc, defaultReps, calculate1RM, hr3, c5wPr]
  have hmem : c5wPr ∈ getPersonalRecords [c5wSession] := by
    norm_num [getPersonalRecords, prSession, c5wSession, hp1, hp2, hp3,
      sortCmp, insertCmp, c5wPr]
  exact ⟨hmem, C5_getPersonalRecords_retention [c5wSession] c5wPr hmem⟩

/-- The exercise→muscle mapping document consumed by MuscleRadarChart:
{exercises: {name: {primary, secondary}}, radarGroups, muscleAliases}. -/
structure MuscleMapping where
  exercises : List (String × (List String × List String))
  radarGroups : List String
  muscleAliases : List (String × String)
deriving Repr, DecidableEq

inductive TimeWindow
  | all
  | threeMonths
  | oneYear
deriving Repr, DecidableEq

/-- Model of danfo-analytics parseWorkoutDate ("DD Mon YYYY, HH:MM"),
simplified to an anchored token parse; timestamps are encoded
order-isomorphically (y*10000 + m*100 + d), not as epoch milliseconds. No
theorem below depends on its values. -/
def monthIndex (s : String) : Option ℕ :=
  if s = "Jan" then some 0
  else if s = "Feb" then some 1
  else if s = "Mar" then some 2
  else if s = "Apr" then some 3
  else if s = "May" then some 4
  else if s = "Jun" then some 5
  else if s = "Jul" then some 6
  else if s = "Aug" then some 7
  else if s = "Sep" then some 8
  else if s = "Oct" then some 9
  else if s = "Nov" then some 10
  else if s = "Dec" then some 11
  else none

def parseWorkoutDate (s : String) : Option ℤ :=
  match s.splitOn " " with
  | d :: mon :: y :: _ =>
    match d.toNat?, monthIndex mon, (y.takeWhile Char.isDigit).toNat? with
    | some dd, some mm, some yy =>
      if 1 ≤ d.length ∧ d.length ≤ 2 ∧ (y.takeWhile Char.isDigit).length = 4 then
        some ((yy : ℤ) * 10000 + (mm : ℤ) * 100 + (dd : ℤ))
      else none
    | _, _, _ => none
  | _ => none

/-- The session time-window filter of MuscleRadarChart: 'all' keeps
everything, unparsable dates are kept, otherwise the months-ago distance
is compared with the window. (The month arithmetic inherits the encoded
timestamps; no claim below depends on which sessions the non-'all'
windows keep.) -/
def muscleFilter (timeWindow : TimeWindow) (now : ℚ) (s : Session) : Bool :=
  match timeWindow with
  | .all => true
  | tw =>
    match parseWorkoutDate s.start_time with
    | none => true
    | some d =>
      let monthsAgo := (now - (d : ℚ)) / (30.44 * 24 * 60 * 60 * 1000)
      match tw with
      | .threeMonths => monthsAgo ≤ 3
      | .oneYear => monthsAgo ≤ 12
      | .all => true

def initVolumes (groups : List String) : List (String × ℚ) :=
  groups.map (fun g => (g, 0))

/-- muscleVolumes[target] += amount, but only when the target group exists
(was initialized from radarGroups). -/
def addVolume (vols : List (String × ℚ)) (muscle : String) (amt : ℚ) :
    List (String × ℚ) :=
  vols.map (fun p => if p.1 = muscle then (p.1, p.2 + amt) else p)

/-- Total volume of one exercise in one session: weight × reps over the
sets where both are numeric. -/
def exerciseVolumeOf (sets : List WSet) : ℚ :=
  (sets.filterMap (fun st =>
    match st.weight_lbs, st.reps with
    | some w, some r => some (w * r)
    | _, _ => none)).sum

/-- Alias resolution: muscleAliases[muscle] || muscle. -/
def aliasOf (m : MuscleMapping) (muscle : String) : String :=
  (assocFind muscle m.muscleAliases).getD muscle

/-- Distribute one exercise's volume: 100% to each primary group, 40% to
each secondary group, through the alias table; exercises without a mapping
are skipped. -/
def distribute (m : MuscleMapping) (vols : List (String × ℚ))
    (exName : String) (sets : List WSet) : List (String × ℚ) :=
  match assocFind exName m.exercises with
  | none => vols
  | some pq =>
    let v := exerciseVolumeOf sets
    let vols1 := pq.1.foldl (fun vs mu => addVolume vs (aliasOf m mu) (v * 1.0)) vols
    pq.2.foldl (fun vs mu => addVolume vs (aliasOf m mu) (v * 0.4)) vols1

def muscleVolumes (sessions : List Session) (m : MuscleMapping)
    (tw : TimeWindow) (now : ℚ) : List (String × ℚ) :=
  (sessions.filter (muscleFilter tw now)).foldl
    (fun vols s => s.exercises.foldl (fun vs q => distribute m vs q.1 q.2) vols)
    (initVolumes m.radarGroups)

/-- The normalization: share = volume / (total || 1) * 100. -/
def normalizeVolumes (vols : List (String × ℚ)) : List (String × ℚ) :=
  vols.map (fun p =>
    (p.1, p.2 / (if (vols.map Prod.snd).sum = 0 then 1 else (vols.map Prod.snd).sum) * 100))

/-- public/app.jsx MuscleRadarChart muscleVolumeData: null for an empty
session list, else raw volumes, normalized percentages and the filtered
session count. -/
def muscleVolumeData (sessions : List Session) (m : MuscleMapping)
    (tw : TimeWindow) (now : ℚ) :
    Option (List (String × ℚ) × List (String × ℚ) × ℕ) :=
  if sessions = [] then none
  else
    some (muscleVolumes sessions m tw now,
      normalizeVolumes (muscleVolumes sessions m tw now),
      (sessions.filter (muscleFilter tw now)).length)

theorem list_sum_zero_of_nonneg {l : List ℚ} (h : ∀ x ∈ l, 0 ≤ x)
    (hs : l.sum = 0) : ∀ x ∈ l, x = 0 := by
  induction l with
  | nil => intro x hx; cases hx
  | cons a t ih =>
    have hta : 0 ≤ a := h a (List.mem_cons_self a t)
    have htt : 0 ≤ t.sum :=
      List.sum_nonneg (fun x hx => h x (List.mem_cons_of_mem a hx))
    rw [List.sum_cons] at hs
    have ha0 : a = 0 := by linarith
    have ht0 : t.sum = 0 := by linarith
    intro x hx
    rcases List.mem_cons.mp hx with h1 | h1
    · exact h1.trans ha0
    · exact ih (fun x hx => h x (List.mem_cons_of_mem a hx)) ht0 x h1

theorem addVolume_nonneg {vols : List (String × ℚ)} {muscle : String} {amt : ℚ}
    (h : ∀ p ∈ vols, 0 ≤ p.2) (hamt : 0 ≤ amt) :
    ∀ p ∈ addVolume vols muscle amt, 0 ≤ p.2 := by
  intro p hp
  obtain ⟨q, hq, hpq⟩ := List.mem_map.mp hp
  by_cases hm : q.1 = muscle
  · rw [if_pos hm] at hpq
    rw [← hpq]
    have := h q hq
    simp only []
    linarith
  · rw [if_neg hm] at hpq
    exact hpq ▸ h q hq


/-- The per-set non-negativity assumption of the data model (weights and
reps, when present, are non-negative). -/
def setNonneg (st : WSet) : Prop :=
  (∀ w, st.weight_lbs = some w → 0 ≤ w) ∧ (∀ r, st.reps = some r → 0 ≤ r)

theorem exerciseVolumeOf_nonneg {sets : List WSet}
    (h : ∀ st ∈ sets, setNonneg st) : 0 ≤ exerciseVolumeOf sets := by
  unfold exerciseVolumeOf
  refine List.sum_nonneg ?_
  intro x hx
  obtain ⟨st, hst, hm⟩ := List.mem_filterMap.mp hx
  cases hw : st.weight_lbs with
  | none => rw [hw] at hm; cases hm
  | some w =>
    cases hr : st.reps with
    | none => rw [hw, hr] at hm; cases hm
    | some r =>
      rw [hw, hr] at hm
      simp only [Option.some_inj] at hm
      rw [← hm]
      exact mul_nonneg ((h st hst).1 w hw) ((h st hst).2 r hr)

theorem foldl_addVolume_nonneg (m : MuscleMapping) (c : ℚ) (hc : 0 ≤ c) :
    ∀ (l : List String) (vs : List (String × ℚ)), (∀ p ∈ vs, 0 ≤ p.2) →
      ∀ p ∈ l.foldl (fun vs mu => addVolume vs (aliasOf m mu) c) vs, 0 ≤ p.2 := by
  intro l
  induction l with
  | nil => intro vs h p hp; exact h p hp
  | cons mu t ih => intro vs h; exact ih _ (addVolume_nonneg h hc)

theorem distribute_nonneg {m : MuscleMapping} {vols : List (String × ℚ)}
    {exName : String} {sets : List WSet} (hv : ∀ p ∈ vols, 0 ≤ p.2)
    (hsets : ∀ st ∈ sets, setNonneg st) :
    ∀ p ∈ distribute m vols exName sets, 0 ≤ p.2 := by
  cases hfind : assocFind exName m.exercises with
  | none =>
    simp only [distribute, hfind]
    exact hv
  | some pq =>
    simp only [distribute, hfind]
    have hvol : 0 ≤ exerciseVolumeOf sets := exerciseVolumeOf_nonneg hsets
    exact foldl_addVolume_nonneg m (exerciseVolumeOf sets * 0.4)
      (mul_nonneg hvol (by norm_num)) pq.2 _
      (foldl_addVolume_nonneg m (exerciseVolumeOf sets * 1.0)
        (mul_nonneg hvol (by norm_num)) pq.1 vols hv)

theorem muscleVolumes_nonneg (sessions : List Session) (m : MuscleMapping)
    (tw : TimeWindow) (now : ℚ)
    (h : ∀ s ∈ sessions, ∀ q ∈ s.exercises, ∀ st ∈ q.2, setNonneg st) :
    ∀ p ∈ muscleVolumes sessions m tw now, 0 ≤ p.2 := by
  unfold muscleVolumes
  have hexfold : ∀ (exs : List (String × List WSet)),
      (∀ q ∈ exs, ∀ st ∈ q.2, setNonneg st) →
      ∀ vs : List (String × ℚ), (∀ p ∈ vs, 0 ≤ p.2) →
      ∀ p ∈ exs.foldl (fun vs q => distribute m vs q.1 q.2) vs, 0 ≤ p.2 := by
    intro exs
    induction exs with
    | nil => intro _ vs hvs p hp; exact hvs p hp
    | cons q t ih =>
      intro hq vs hvs
      exact ih (fun q' hq' => hq q' (List.mem_cons_of_mem q hq'))
        _ (distribute_nonneg hvs (hq q (List.mem_cons_self q t)))
  have hmain : ∀ (l : List Session),
      (∀ s ∈ l, ∀ q ∈ s.exercises, ∀ st ∈ q.2, setNonneg st) →
      ∀ vs : List (String × ℚ), (∀ p ∈ vs, 0 ≤ p.2) →
      ∀ p ∈ l.foldl (fun vols s =>
          s.exercises.foldl (fun vs q => distribute m vs q.1 q.2) vols) vs,
        0 ≤ p.2 := by
    intro l
    induction l with
    | nil => intro _ vs hvs p hp; exact hvs p hp
    | cons s t ih =>
      intro hs vs hvs
      exact ih (fun s' hs' => hs s' (List.mem_cons_of_mem s hs'))
        _ (hexfold s.exercises (hs s (List.mem_cons_self s t)) vs hvs)
  refine hmain (sessions.filter (muscleFilter tw now)) ?_ (initVolumes m.radarGroups) ?_
  · intro s hs
    exact h s (List.mem_of_mem_filter hs)
  · intro p hp
    obtain ⟨g, _, hg⟩ := List.mem_map.mp hp
    rw [← hg]

/-- C9 (corrected): the division guard `|| 1` makes every share 0 whenever
every group's accumulated volume is 0 — in particular whenever all set
weights and reps are non-negative (the data-model invariant) and the total
is 0; otherwise each share is volume/total × 100. The claim as stated
("sums to 0") fails when positive and negative volumes cancel: the guard
then divides by 1 and reports non-zero shares. -/
theorem C9_muscle_volume_normalization (sessions : List Session)
    (m : MuscleMapping) (tw : TimeWindow) (now : ℚ)
    (vols norm : List (String × ℚ)) (cnt : ℕ)
    (h : muscleVolumeData sessions m tw now = some (vols, norm, cnt)) :
    ((∀ p ∈ vols, p.2 = 0) → ∀ p ∈ norm, p.2 = 0) ∧
    ((vols.map Prod.snd).sum ≠ 0 →
      norm = vols.map (fun p => (p.1, p.2 / (vols.map Prod.snd).sum * 100))) ∧
    ((∀ s ∈ sessions, ∀ q ∈ s.exercises, ∀ st ∈ q.2, setNonneg st) →
      (vols.map Prod.snd).sum = 0 → ∀ p ∈ norm, p.2 = 0) := by
  unfold muscleVolumeData at h
  split at h
  · cases h
  · simp only [Option.some_inj, Prod.mk.injEq] at h
    obtain ⟨hvols, hnorm, -⟩ := h
    subst hvols
    subst hnorm
    have hzero : (∀ p ∈ muscleVolumes sessions m tw now, p.2 = 0) →
        ∀ p ∈ normalizeVolumes (muscleVolumes sessions m tw now), p.2 = 0 := by
      intro hall p hp
      unfold normalizeVolumes at hp
      obtain ⟨q, hq, hpq⟩ := List.mem_map.mp hp
      rw [← hpq]
      have : q.2 = 0 := hall q hq
      simp [this]
    refine ⟨hzero, ?_, ?_⟩
    · intro hne
      unfold normalizeVolumes
      rw [if_neg hne]
    · intro hnn hsum
      refine hzero ?_
      intro p hp
      have h1 : ∀ x ∈ (muscleVolumes sessions m tw now).map Prod.snd, 0 ≤ x := by
        intro x hx
        obtain ⟨q, hq, hqx⟩ := List.mem_map.mp hx
        rw [← hqx]
        exact muscleVolumes_nonneg sessions m tw now hnn q hq
      have h2 := list_sum_zero_of_nonneg h1 hsum
      exact h2 p.2 (List.mem_map.mpr ⟨p, hp, rfl⟩)

def c9Mapping : MuscleMapping :=
  { exercises := [("Pos", (["A"], [])), ("Neg", (["B"], []))],
    radarGroups := ["A", "B"], muscleAliases := [] }

def c9Session : Session :=
  { id := "t|||2024-01-01", title := "t", start_time := "2024-01-01",
    end_time := "", description := "",
    exercises := [("Pos", [prSet 10 10]), ("Neg", [prSet (-10) 10])] }

/-- C9 counterexample: volumes +100 (group A) and −100 (group B) sum to 0,
but the `|| 1` guard then divides by 1 and the shares are ±10000, not 0 —
the claim's "total 0 ⇒ all shares 0" only holds when every individual
volume is 0. -/
theorem C9_counterexample :
    muscleVolumeData [c9Session] c9Mapping TimeWindow.all 0
      = some ([("A", 100), ("B", -100)], [("A", 10000), ("B", -10000)], 1) ∧
    (([("A", (100 : ℚ)), ("B", -100)]).map Prod.snd).sum = 0 := by
  constructor
  · have hmv : muscleVolumes [c9Session] c9Mapping TimeWindow.all 0
        = [("A", 100), ("B", -100)] := by
      simp +decide [muscleVolumes, muscleFilter, c9Session, c9Mapping, initVolumes,
        distribute, assocFind, exerciseVolumeOf, prSet, aliasOf, addVolume]
      norm_num
    norm_num [muscleVolumeData, hmv, normalizeVolumes, muscleFilter]
  · norm_num

def c9wMapping : MuscleMapping :=
  { exercises := [("Ex", (["A"], []))], radarGroups := ["A"], muscleAliases := [] }

def c9wSession : Session :=
  { id := "t|||2024-01-01", title := "t", start_time := "2024-01-01",
    end_time := "", description := "",
    exercises := [("Ex", [prSet 0 5])] }

theorem C9_muscle_volume_normalization_witness :
    muscleVolumeData [c9wSession] c9wMapping TimeWindow.all 0
      = some ([("A", 0)], [("A", 0)], 1) ∧
    (∀ p ∈ [(("A" : String), (0 : ℚ))], p.2 = 0) := by
  have hmv : muscleVolumes [c9wSession] c9wMapping TimeWindow.all 0
      = [("A", 0)] := by
    simp +decide [muscleVolumes, muscleFilter, c9wSession, c9wMapping, initVolumes,
      distribute, assocFind, exerciseVolumeOf, prSet, aliasOf, addVolume]
  have heval : muscleVolumeData [c9wSession] c9wMapping TimeWindow.all 0
      = some ([("A", 0)], [("A", 0)], 1) := by
    norm_num [muscleVolumeData, hmv, normalizeVolumes, muscleFilter]
  refine ⟨heval, ?_⟩
  exact (C9_muscle_volume_normalization [c9wSession] c9wMapping TimeWindow.all 0
    [("A", 0)] [("A", 0)] 1 heval).1 (by decide)

end WorkoutViz
